import Mathlib

/-!
# Verification of the RNN-T loss kernels

Shallow embedding, in exact real arithmetic, of the CPU RNN-T loss kernels of
`torchaudio/csrc/rnnt/cpu/cpu_kernels.h` and of the GPU dispatcher control flow of
`torchaudio/csrc/rnnt/gpu/gpu_transducer.h`.

Conventions:
* a per-sample lattice table (`alpha`, `beta`, `denominators`) is a function `ℕ → ℕ → ℝ`
  indexed by `(t, u)`; a logits/gradients tensor over the vocabulary is `ℕ → ℕ → ℕ → ℝ`
  indexed by `(t, u, d)`;
* the imperative fill loops are embedded as explicit state passing over such grids
  (`upd` models a single store), so frame properties about untouched cells are provable;
* single-pass dynamic-programming fills are additionally characterised by the recursive
  cell functions `alphaCell` / `betaCell` that each in-range cell provably holds after
  the pass;
* machine floats become exact reals; `-INFINITY` sentinels (restricted mode) become `⊥`
  in `WithBot ℝ`.
-/

namespace Rnnt

open Real Finset

/-- Modelled from the spec: `math::lse` (in `torchaudio/csrc/rnnt/cpu/math.h`, which is not
under `src/`): "`lse(a,b)` is numerically stable: `max(a,b) + log1p(exp(−|a−b|))`". This is
the all-finite case; the `−∞` cases live in `lseW` below. -/
noncomputable def lse (a b : ℝ) : ℝ := max a b + Real.log (1 + Real.exp (-|a - b|))

theorem lse_comm (a b : ℝ) : lse a b = lse b a := by
  rw [lse, lse, max_comm, abs_sub_comm]

/-- In exact arithmetic the stable form of `lse` is the log of the sum of exponentials. -/
theorem lse_eq_log (a b : ℝ) : lse a b = Real.log (Real.exp a + Real.exp b) := by
  have key : ∀ x y : ℝ, x ≤ y → lse x y = Real.log (Real.exp x + Real.exp y) := by
    intro x y hxy
    have habs : -|x - y| = x - y := by
      rw [abs_of_nonpos (by linarith)]; ring
    have hexp : Real.exp x + Real.exp y = Real.exp y * (1 + Real.exp (x - y)) := by
      rw [mul_add, mul_one, ← Real.exp_add]
      ring_nf
    rw [lse, max_eq_right hxy, habs, hexp,
      Real.log_mul (Real.exp_ne_zero y) (by positivity), Real.log_exp]
  rcases le_total a b with h | h
  · exact key a b h
  · rw [lse_comm, key b a h, add_comm (Real.exp b)]

/-- Exponential of `lse` is the sum of the exponentials. -/
theorem exp_lse (a b : ℝ) : Real.exp (lse a b) = Real.exp a + Real.exp b := by
  rw [lse_eq_log, Real.exp_log (by positivity)]

/-- One `{skip, emit}` pair of the `logProbs` workspace (`LogProbs<DTYPE>` in
`cpu_kernels.h`): `skip` is the blank transition, `emit` the target transition. -/
structure LogProbPair where
  skip : ℝ
  emit : ℝ

/-- Value held by cell `(t, u)` of the forward lattice after `ComputeAlphaOneSequence`:
the recurrence of the t-ascending, u-ascending fill of `cpu_kernels.h` lines 157-188.
Each cell reads only cells already final when it is written, so the imperative fill
computes exactly this function (proved below against the state-passing embedding). -/
noncomputable def alphaCell (lp : ℕ → ℕ → LogProbPair) : ℕ → ℕ → ℝ
  | 0, 0 => 0
  | t + 1, 0 => alphaCell lp t 0 + (lp t 0).skip
  | 0, u + 1 => alphaCell lp 0 u + (lp 0 u).emit
  | t + 1, u + 1 =>
      lse (alphaCell lp t (u + 1) + (lp t (u + 1)).skip)
        (alphaCell lp (t + 1) u + (lp (t + 1) u).emit)

/-- Value held by cell `(t, u)` of the backward lattice after `ComputeBetaOneSequence`
(`cpu_kernels.h` lines 251-282), for `t < T`, `u < U`: corner `(T-1, U-1)` holds the final
blank log-probability, the last column descends in `t`, the last row descends in `u`, and
interior cells combine both successors with `lse`. -/
noncomputable def betaCell (lp : ℕ → ℕ → LogProbPair) (T U : ℕ) (t u : ℕ) : ℝ :=
  if t + 1 < T then
    if u + 1 < U then
      lse (betaCell lp T U (t + 1) u + (lp t u).skip)
        (betaCell lp T U t (u + 1) + (lp t u).emit)
    else betaCell lp T U (t + 1) u + (lp t u).skip
  else
    if u + 1 < U then betaCell lp T U t (u + 1) + (lp t u).emit
    else (lp t u).skip
termination_by (T - t) + (U - u)
decreasing_by all_goals omega

/-- Forward score of one sample: `alpha(T-1, U-1) + logProbs(T-1, U-1).skip`. -/
noncomputable def forwardScore (lp : ℕ → ℕ → LogProbPair) (T U : ℕ) : ℝ :=
  alphaCell lp (T - 1) (U - 1) + (lp (T - 1) (U - 1)).skip

/-- Backward score of one sample: `beta(0, 0)`. -/
noncomputable def backwardScore (lp : ℕ → ℕ → LogProbPair) (T U : ℕ) : ℝ :=
  betaCell lp T U 0 0

/-- Exponential-space companion of `alphaCell` over arbitrary real cell weights `S`
(skip) and `E` (emit); the forward/backward score identity is a polynomial identity
at this level. -/
noncomputable def aW (S E : ℕ → ℕ → ℝ) : ℕ → ℕ → ℝ
  | 0, 0 => 1
  | t + 1, 0 => aW S E t 0 * S t 0
  | 0, u + 1 => aW S E 0 u * E 0 u
  | t + 1, u + 1 => aW S E t (u + 1) * S t (u + 1) + aW S E (t + 1) u * E (t + 1) u

/-- Exponential-space companion of `betaCell`. -/
noncomputable def pW (S E : ℕ → ℕ → ℝ) (T U : ℕ) (t u : ℕ) : ℝ :=
  if t + 1 < T then
    if u + 1 < U then pW S E T U (t + 1) u * S t u + pW S E T U t (u + 1) * E t u
    else pW S E T U (t + 1) u * S t u
  else
    if u + 1 < U then pW S E T U t (u + 1) * E t u
    else S t u
termination_by (T - t) + (U - u)
decreasing_by all_goals omega

/-- Skip weights `exp(lp.skip)` of a log-prob table. -/
noncomputable def expSkip (lp : ℕ → ℕ → LogProbPair) : ℕ → ℕ → ℝ :=
  fun t u => Real.exp ((lp t u).skip)

/-- Emit weights `exp(lp.emit)` of a log-prob table. -/
noncomputable def expEmit (lp : ℕ → ℕ → LogProbPair) : ℕ → ℕ → ℝ :=
  fun t u => Real.exp ((lp t u).emit)

theorem exp_alphaCell (lp : ℕ → ℕ → LogProbPair) :
    ∀ t u, Real.exp (alphaCell lp t u) = aW (expSkip lp) (expEmit lp) t u := by
  intro t u
  induction t, u using alphaCell.induct lp with
  | case1 => simp [alphaCell, aW]
  | case2 t ih => rw [alphaCell, aW, Real.exp_add, ih]; rfl
  | case3 u ih => rw [alphaCell, aW, Real.exp_add, ih]; rfl
  | case4 t u ih1 ih2 =>
      rw [alphaCell, aW, exp_lse, Real.exp_add, Real.exp_add, ih1, ih2]; rfl

theorem exp_betaCell (lp : ℕ → ℕ → LogProbPair) (T U : ℕ) :
    ∀ t u, Real.exp (betaCell lp T U t u) = pW (expSkip lp) (expEmit lp) T U t u := by
  intro t u
  induction t, u using betaCell.induct lp T U with
  | case1 t u h1 h2 ih1 ih2 =>
      rw [betaCell, pW]
      simp only [if_pos h1, if_pos h2]
      rw [exp_lse, Real.exp_add, Real.exp_add, ih1, ih2]; rfl
  | case2 t u h1 h2 ih =>
      rw [betaCell, pW]
      simp only [if_pos h1, if_neg h2]
      rw [Real.exp_add, ih]; rfl
  | case3 t u h1 h2 ih =>
      rw [betaCell, pW]
      simp only [if_neg h1, if_pos h2]
      rw [Real.exp_add, ih]; rfl
  | case4 t u h1 h2 =>
      rw [betaCell, pW]
      simp only [if_neg h1, if_neg h2]; rfl

/-! ### The path-sum identity `forwardScore = backwardScore`

The identity is proved in exponential space where it is polynomial: `aW` expands over
prefix paths, `pW` over suffix paths, and a column-by-column cut argument ties the two
together. -/

theorem aW_col (S E : ℕ → ℕ → ℝ) : ∀ t, aW S E t 0 = ∏ k ∈ Finset.range t, S k 0 := by
  intro t
  induction t with
  | zero => simp [aW]
  | succ t ih => rw [aW, ih, Finset.prod_range_succ]

theorem pW_lastCol (S E : ℕ → ℕ → ℝ) (T U : ℕ) (hU : 1 ≤ U) :
    ∀ d t, t + d + 1 = T → pW S E T U t (U - 1) = ∏ k ∈ Finset.Ico t T, S k (U - 1) := by
  intro d
  induction d with
  | zero =>
      intro t ht
      rw [pW, if_neg (by omega), if_neg (by omega)]
      rw [show T = t + 1 from by omega, Nat.Ico_succ_singleton, Finset.prod_singleton]
  | succ d ih =>
      intro t ht
      rw [pW, if_pos (by omega), if_neg (by omega), ih (t + 1) (by omega),
        Finset.prod_eq_prod_Ico_succ_bot (show t < T from by omega), mul_comm]

theorem pW_colDec (S E : ℕ → ℕ → ℝ) (T U u : ℕ) (hu : u + 1 < U) :
    ∀ d t, t + d + 1 = T →
      pW S E T U t u =
        ∑ k ∈ Finset.Ico t T,
          (∏ m ∈ Finset.Ico t k, S m u) * E k u * pW S E T U k (u + 1) := by
  intro d
  induction d with
  | zero =>
      intro t ht
      rw [pW, if_neg (by omega), if_pos hu,
        show T = t + 1 from by omega, Nat.Ico_succ_singleton, Finset.sum_singleton,
        Finset.Ico_self, Finset.prod_empty, one_mul, mul_comm]
  | succ d ih =>
      intro t ht
      have htT : t < T := by omega
      rw [pW, if_pos (by omega), if_pos hu, ih (t + 1) (by omega), Finset.sum_mul,
        Finset.sum_eq_sum_Ico_succ_bot htT, Finset.Ico_self, Finset.prod_empty, one_mul]
      rw [add_comm]
      congr 1
      · ring
      · refine Finset.sum_congr rfl ?_
        intro k hk
        have hkmem : t < k := by
          have := (Finset.mem_Ico.mp hk).1; omega
        rw [Finset.prod_eq_prod_Ico_succ_bot hkmem]
        ring

theorem aW_colDec (S E : ℕ → ℕ → ℝ) (u : ℕ) :
    ∀ k, aW S E k (u + 1) =
      ∑ j ∈ Finset.range (k + 1),
        aW S E j u * E j u * ∏ m ∈ Finset.Ico j k, S m (u + 1) := by
  intro k
  induction k with
  | zero => simp [aW]
  | succ k ih =>
      rw [Finset.sum_range_succ
        (fun j => aW S E j u * E j u * ∏ m ∈ Finset.Ico j (k + 1), S m (u + 1)) (k + 1)]
      rw [aW, ih, Finset.sum_mul]
      congr 1
      · refine Finset.sum_congr rfl ?_
        intro j hj
        have hjk : j ≤ k := by
          have := Finset.mem_range.mp hj; omega
        rw [Finset.prod_Ico_succ_top hjk]
        ring
      · rw [Finset.Ico_self, Finset.prod_empty, mul_one]

theorem pW_cut (S E : ℕ → ℕ → ℝ) (T U : ℕ) (hT : 1 ≤ T) :
    ∀ u, u + 1 < U →
      pW S E T U 0 0 =
        ∑ k ∈ Finset.range T, aW S E k u * E k u * pW S E T U k (u + 1) := by
  intro u
  induction u with
  | zero =>
      intro hu
      rw [pW_colDec S E T U 0 hu (T - 1) 0 (by omega), Finset.range_eq_Ico]
      refine Finset.sum_congr rfl ?_
      intro k _
      rw [← Finset.range_eq_Ico, ← aW_col S E k]
  | succ u ih =>
      intro hu
      rw [ih (by omega)]
      have step :
          ∀ k ∈ Finset.range T,
            aW S E k u * E k u * pW S E T U k (u + 1) =
              ∑ j ∈ Finset.Ico k T,
                aW S E k u * E k u *
                  ((∏ m ∈ Finset.Ico k j, S m (u + 1)) * E j u.succ *
                    pW S E T U j (u + 1 + 1)) := by
        intro k hk
        have hkT : k < T := Finset.mem_range.mp hk
        rw [pW_colDec S E T U (u + 1) hu (T - 1 - k) k (by omega), Finset.mul_sum]
      rw [Finset.sum_congr rfl step, Finset.range_eq_Ico, Finset.sum_Ico_Ico_comm]
      refine Finset.sum_congr rfl ?_
      intro j hj
      have inner :
          ∀ k ∈ Finset.Ico 0 (j + 1),
            aW S E k u * E k u *
                ((∏ m ∈ Finset.Ico k j, S m (u + 1)) * E j u.succ *
                  pW S E T U j (u + 1 + 1)) =
              (aW S E k u * E k u * ∏ m ∈ Finset.Ico k j, S m (u + 1)) *
                (E j u.succ * pW S E T U j (u + 1 + 1)) := by
        intro k _; ring
      rw [Finset.sum_congr rfl inner, ← Finset.sum_mul, ← Finset.range_eq_Ico,
        ← aW_colDec S E u j]
      ring

theorem pW_eq_aW (S E : ℕ → ℕ → ℝ) (T U : ℕ) (hT : 1 ≤ T) (hU : 1 ≤ U) :
    pW S E T U 0 0 = aW S E (T - 1) (U - 1) * S (T - 1) (U - 1) := by
  by_cases hU1 : U = 1
  · subst hU1
    rw [pW_lastCol S E T 1 le_rfl (T - 1) 0 (by omega), ← Finset.range_eq_Ico]
    simp only [Nat.sub_self]
    rw [aW_col S E (T - 1), ← Finset.prod_range_succ, show T - 1 + 1 = T from by omega]
  · have hU2 : 2 ≤ U := by omega
    rw [pW_cut S E T U hT (U - 2) (by omega)]
    have last :
        ∀ k ∈ Finset.range T,
          aW S E k (U - 2) * E k (U - 2) * pW S E T U k (U - 2 + 1) =
            (aW S E k (U - 2) * E k (U - 2) *
              ∏ m ∈ Finset.Ico k (T - 1), S m (U - 2 + 1)) * S (T - 1) (U - 1) := by
      intro k hk
      have hkT : k < T := Finset.mem_range.mp hk
      rw [show U - 2 + 1 = U - 1 from by omega,
        pW_lastCol S E T U (by omega) (T - 1 - k) k (by omega),
        show T = (T - 1) + 1 from by omega, Finset.prod_Ico_succ_top (by omega),
        show T - 1 + 1 - 1 = T - 1 from by omega]
      ring
    rw [Finset.sum_congr rfl last, ← Finset.sum_mul,
      show (Finset.range T) = Finset.range ((T - 1) + 1) from by rw [show T - 1 + 1 = T from by omega],
      ← aW_colDec S E (U - 2) (T - 1), show U - 2 + 1 = U - 1 from by omega]

/-- Core identity: in exact arithmetic the forward score equals the backward score.
This is the helper shared by the theorems for the cost and score claims. -/
theorem score_identity (lp : ℕ → ℕ → LogProbPair) (T U : ℕ) (hT : 1 ≤ T) (hU : 1 ≤ U) :
    forwardScore lp T U = backwardScore lp T U := by
  rw [← Real.exp_eq_exp, forwardScore, backwardScore, Real.exp_add, exp_alphaCell,
    exp_betaCell, pW_eq_aW (expSkip lp) (expEmit lp) T U hT hU]
  rfl

/-! ### State-passing embedding of `ComputeAlphaOneSequence` -/

/-- One store `grid[t][u] = v` into a per-sample lattice view. -/
def upd (g : ℕ → ℕ → ℝ) (t u : ℕ) (v : ℝ) : ℕ → ℕ → ℝ :=
  fun a b => if a = t ∧ b = u then v else g a b

theorem upd_same (g : ℕ → ℕ → ℝ) (t u : ℕ) (v : ℝ) : upd g t u v t u = v := by
  simp [upd]

theorem upd_other (g : ℕ → ℕ → ℝ) (t u : ℕ) (v : ℝ) {a b : ℕ} (h : ¬(a = t ∧ b = u)) :
    upd g t u v a b = g a b := by
  simp only [upd, if_neg h]

/-- The `u = 0` boundary loop of `ComputeAlphaOneSequence`:
`for (t = 1; t < T; ++t) alpha(t,0) = alpha(t-1,0) + logProbs(t-1,0).skip`. -/
noncomputable def alphaColLoop (lp : ℕ → ℕ → LogProbPair) (T : ℕ)
    (g : ℕ → ℕ → ℝ) (t : ℕ) : ℕ → ℕ → ℝ :=
  if t < T then
    alphaColLoop lp T (upd g t 0 (g (t - 1) 0 + (lp (t - 1) 0).skip)) (t + 1)
  else g
termination_by T - t
decreasing_by omega

/-- The `t = 0` boundary loop of `ComputeAlphaOneSequence`:
`for (u = 1; u < U; ++u) alpha(0,u) = alpha(0,u-1) + logProbs(0,u-1).emit`. -/
noncomputable def alphaRowLoop (lp : ℕ → ℕ → LogProbPair) (U : ℕ)
    (g : ℕ → ℕ → ℝ) (u : ℕ) : ℕ → ℕ → ℝ :=
  if u < U then
    alphaRowLoop lp U (upd g 0 u (g 0 (u - 1) + (lp 0 (u - 1)).emit)) (u + 1)
  else g
termination_by U - u
decreasing_by omega

/-- Inner loop of the interior fill at row `t`:
`for (u = 1; u < U; ++u) alpha(t,u) = lse(alpha(t-1,u)+skip(t-1,u), alpha(t,u-1)+emit(t,u-1))`. -/
noncomputable def alphaInnerLoop (lp : ℕ → ℕ → LogProbPair) (U : ℕ)
    (g : ℕ → ℕ → ℝ) (t u : ℕ) : ℕ → ℕ → ℝ :=
  if u < U then
    alphaInnerLoop lp U
      (upd g t u
        (lse (g (t - 1) u + (lp (t - 1) u).skip) (g t (u - 1) + (lp t (u - 1)).emit)))
      t (u + 1)
  else g
termination_by U - u
decreasing_by omega

/-- Outer loop of the interior fill: `for (t = 1; t < T; ++t)` running the inner loop. -/
noncomputable def alphaOuterLoop (lp : ℕ → ℕ → LogProbPair) (T U : ℕ)
    (g : ℕ → ℕ → ℝ) (t : ℕ) : ℕ → ℕ → ℝ :=
  if t < T then alphaOuterLoop lp T U (alphaInnerLoop lp U g t 1) (t + 1)
  else g
termination_by T - t
decreasing_by omega

/-- `ComputeAlphaOneSequence` (`cpu_kernels.h` lines 157-188): fills the forward lattice
into the buffer `g0` and returns the final grid together with the returned
`forward_score = alpha(T-1,U-1) + logProbs(T-1,U-1).skip`. -/
noncomputable def ComputeAlphaOneSequence (lp : ℕ → ℕ → LogProbPair) (T U : ℕ)
    (g0 : ℕ → ℕ → ℝ) : (ℕ → ℕ → ℝ) × ℝ :=
  let g1 := upd g0 0 0 0
  let g2 := alphaColLoop lp T g1 1
  let g3 := alphaRowLoop lp U g2 1
  let g4 := alphaOuterLoop lp T U g3 1
  (g4, g4 (T - 1) (U - 1) + (lp (T - 1) (U - 1)).skip)

theorem alphaColLoop_out (lp : ℕ → ℕ → LogProbPair) (T : ℕ) :
    ∀ g t a b, ¬(b = 0 ∧ t ≤ a ∧ a < T) → alphaColLoop lp T g t a b = g a b := by
  intro g t
  induction g, t using alphaColLoop.induct lp T with
  | case1 g t ht ih =>
      intro a b h
      rw [alphaColLoop, if_pos ht, ih a b (by omega), upd_other _ _ _ _ (by omega)]
  | case2 g t ht =>
      intro a b h
      rw [alphaColLoop, if_neg ht]

theorem alphaColLoop_val (lp : ℕ → ℕ → LogProbPair) (T : ℕ) :
    ∀ g t, 1 ≤ t → g (t - 1) 0 = alphaCell lp (t - 1) 0 →
      ∀ a, t ≤ a → a < T → alphaColLoop lp T g t a 0 = alphaCell lp a 0 := by
  intro g t
  induction g, t using alphaColLoop.induct lp T with
  | case1 g t ht ih =>
      intro h1 hcell a ha haT
      have hval : g (t - 1) 0 + (lp (t - 1) 0).skip = alphaCell lp t 0 := by
        conv_rhs => rw [show t = (t - 1) + 1 from by omega]
        rw [alphaCell, hcell]
      rcases eq_or_lt_of_le ha with rfl | halt
      · rw [alphaColLoop, if_pos ht,
          alphaColLoop_out lp T _ _ _ _ (by omega), upd_same, hval]
      · rw [alphaColLoop, if_pos ht]
        exact ih (by omega) (by rw [show t + 1 - 1 = t from by omega, upd_same, hval]) a
          (by omega) haT
  | case2 g t ht =>
      intro _ _ a ha haT
      omega

theorem alphaRowLoop_out (lp : ℕ → ℕ → LogProbPair) (U : ℕ) :
    ∀ g u a b, ¬(a = 0 ∧ u ≤ b ∧ b < U) → alphaRowLoop lp U g u a b = g a b := by
  intro g u
  induction g, u using alphaRowLoop.induct lp U with
  | case1 g u hu ih =>
      intro a b h
      rw [alphaRowLoop, if_pos hu, ih a b (by omega), upd_other _ _ _ _ (by omega)]
  | case2 g u hu =>
      intro a b h
      rw [alphaRowLoop, if_neg hu]

theorem alphaRowLoop_val (lp : ℕ → ℕ → LogProbPair) (U : ℕ) :
    ∀ g u, 1 ≤ u → g 0 (u - 1) = alphaCell lp 0 (u - 1) →
      ∀ b, u ≤ b → b < U → alphaRowLoop lp U g u 0 b = alphaCell lp 0 b := by
  intro g u
  induction g, u using alphaRowLoop.induct lp U with
  | case1 g u hu ih =>
      intro h1 hcell b hb hbU
      have hval : g 0 (u - 1) + (lp 0 (u - 1)).emit = alphaCell lp 0 u := by
        conv_rhs => rw [show u = (u - 1) + 1 from by omega]
        rw [alphaCell, hcell]
      rcases eq_or_lt_of_le hb with rfl | hblt
      · rw [alphaRowLoop, if_pos hu,
          alphaRowLoop_out lp U _ _ _ _ (by omega), upd_same, hval]
      · rw [alphaRowLoop, if_pos hu]
        exact ih (by omega) (by rw [show u + 1 - 1 = u from by omega, upd_same, hval]) b
          (by omega) hbU
  | case2 g u hu =>
      intro _ _ b hb hbU
      omega

theorem alphaInnerLoop_out (lp : ℕ → ℕ → LogProbPair) (U : ℕ) :
    ∀ g t u a b, ¬(a = t ∧ u ≤ b ∧ b < U) → alphaInnerLoop lp U g t u a b = g a b := by
  intro g t u
  induction g, t, u using alphaInnerLoop.induct lp U with
  | case1 g t u hu ih =>
      intro a b h
      rw [alphaInnerLoop, if_pos hu, ih a b (by omega), upd_other _ _ _ _ (by omega)]
  | case2 g t u hu =>
      intro a b h
      rw [alphaInnerLoop, if_neg hu]

theorem alphaInnerLoop_val (lp : ℕ → ℕ → LogProbPair) (U : ℕ) :
    ∀ g t u, 1 ≤ t → 1 ≤ u →
      (∀ b, b < U → g (t - 1) b = alphaCell lp (t - 1) b) →
      g t (u - 1) = alphaCell lp t (u - 1) →
      ∀ b, u ≤ b → b < U → alphaInnerLoop lp U g t u t b = alphaCell lp t b := by
  intro g t u
  induction g, t, u using alphaInnerLoop.induct lp U with
  | case1 g t u hu ih =>
      intro ht h1 hrow hleft b hb hbU
      have hval :
          lse (g (t - 1) u + (lp (t - 1) u).skip) (g t (u - 1) + (lp t (u - 1)).emit) =
            alphaCell lp t u := by
        conv_rhs => rw [show t = (t - 1) + 1 from by omega, show u = (u - 1) + 1 from by omega]
        rw [alphaCell, show t - 1 + 1 = t from by omega, show u - 1 + 1 = u from by omega,
          hrow u hu, hleft]
      rcases eq_or_lt_of_le hb with rfl | hblt
      · rw [alphaInnerLoop, if_pos hu,
          alphaInnerLoop_out lp U _ _ _ _ _ (by omega), upd_same, hval]
      · rw [alphaInnerLoop, if_pos hu]
        refine ih ht (by omega) ?_ ?_ b (by omega) hbU
        · intro b' hb'
          rw [upd_other _ _ _ _ (by omega), hrow b' hb']
        · rw [show u + 1 - 1 = u from by omega, upd_same, hval]
  | case2 g t u hu =>
      intro _ _ _ _ b hb hbU
      omega

theorem alphaOuterLoop_out (lp : ℕ → ℕ → LogProbPair) (T U : ℕ) :
    ∀ g t a b, ¬(t ≤ a ∧ a < T ∧ 1 ≤ b ∧ b < U) → alphaOuterLoop lp T U g t a b = g a b := by
  intro g t
  induction g, t using alphaOuterLoop.induct lp T U with
  | case1 g t ht ih =>
      intro a b h
      rw [alphaOuterLoop, if_pos ht, ih a b (by omega),
        alphaInnerLoop_out lp U _ _ _ _ _ (by omega)]
  | case2 g t ht =>
      intro a b h
      rw [alphaOuterLoop, if_neg ht]

theorem alphaOuterLoop_val (lp : ℕ → ℕ → LogProbPair) (T U : ℕ) :
    ∀ g t, 1 ≤ t →
      (∀ a b, a < t → b < U → g a b = alphaCell lp a b) →
      (∀ a, a < T → g a 0 = alphaCell lp a 0) →
      ∀ a b, a < T → b < U → alphaOuterLoop lp T U g t a b = alphaCell lp a b := by
  intro g t
  induction g, t using alphaOuterLoop.induct lp T U with
  | case1 g t ht ih =>
      intro h1 hdone hcol a b haT hbU
      have hU1 : 1 ≤ U := by omega
      have hrowt : ∀ b', b' < U → alphaInnerLoop lp U g t 1 t b' = alphaCell lp t b' := by
        intro b' hb'
        rcases Nat.eq_zero_or_pos b' with rfl | hb0
        · rw [alphaInnerLoop_out lp U _ _ _ _ _ (by omega), hcol t ht]
        · exact alphaInnerLoop_val lp U g t 1 h1 le_rfl
            (fun b'' hb'' => hdone (t - 1) b'' (by omega) hb'') (by
              rw [show (1 : ℕ) - 1 = 0 from rfl]
              exact hcol t ht) b' hb0 hb'
      rw [alphaOuterLoop, if_pos ht]
      refine ih (by omega) ?_ ?_ a b haT hbU
      · intro a' b' ha' hb'
        rcases Nat.lt_or_ge a' t with halt | hage
        · rw [alphaInnerLoop_out lp U _ _ _ _ _ (by omega)]
          exact hdone a' b' halt hb'
        · have : a' = t := by omega
          subst this
          exact hrowt b' hb'
      · intro a' ha'
        rw [alphaInnerLoop_out lp U _ _ _ _ _ (by omega)]
        exact hcol a' ha'
  | case2 g t ht =>
      intro h1 hdone hcol a b haT hbU
      rw [alphaOuterLoop, if_neg ht]
      exact hdone a b (by omega) hbU

/-- After `ComputeAlphaOneSequence`, every in-range cell holds the `alphaCell` recurrence. -/
theorem ComputeAlphaOneSequence_cell (lp : ℕ → ℕ → LogProbPair) (T U : ℕ)
    (g0 : ℕ → ℕ → ℝ) (hT : 1 ≤ T) (hU : 1 ≤ U) :
    ∀ t u, t < T → u < U → (ComputeAlphaOneSequence lp T U g0).1 t u = alphaCell lp t u := by
  intro t u htT huU
  have hg1 : ∀ a b, a = 0 → b = 0 → upd g0 0 0 0 a b = alphaCell lp a b := by
    intro a b ha hb; subst ha; subst hb
    rw [upd_same]; simp [alphaCell]
  have hcol : ∀ a, a < T → alphaColLoop lp T (upd g0 0 0 0) 1 a 0 = alphaCell lp a 0 := by
    intro a haT
    rcases Nat.eq_zero_or_pos a with rfl | ha0
    · rw [alphaColLoop_out lp T _ _ _ _ (by omega)]
      exact hg1 0 0 rfl rfl
    · exact alphaColLoop_val lp T _ 1 le_rfl (by simpa using hg1 0 0 rfl rfl) a ha0 haT
  have hrow : ∀ b, b < U →
      alphaRowLoop lp U (alphaColLoop lp T (upd g0 0 0 0) 1) 1 0 b = alphaCell lp 0 b := by
    intro b hbU
    rcases Nat.eq_zero_or_pos b with rfl | hb0
    · rw [alphaRowLoop_out lp U _ _ _ _ (by omega)]
      exact hcol 0 hT
    · exact alphaRowLoop_val lp U _ 1 le_rfl (by simpa using hcol 0 hT) b hb0 hbU
  have hcol' : ∀ a, a < T →
      alphaRowLoop lp U (alphaColLoop lp T (upd g0 0 0 0) 1) 1 a 0 = alphaCell lp a 0 := by
    intro a haT
    rcases Nat.eq_zero_or_pos a with rfl | ha0
    · exact hrow 0 hU
    · rw [alphaRowLoop_out lp U _ _ _ _ (by omega)]
      exact hcol a haT
  exact alphaOuterLoop_val lp T U _ 1 le_rfl
    (fun a b ha hb => by
      have : a = 0 := by omega
      subst this
      exact hrow b hb)
    hcol' t u htT huU

/-- `ComputeAlphaOneSequence` never touches cells outside `t < T ∧ u < U`. -/
theorem ComputeAlphaOneSequence_frame (lp : ℕ → ℕ → LogProbPair) (T U : ℕ)
    (g0 : ℕ → ℕ → ℝ) (hT : 1 ≤ T) (hU : 1 ≤ U) :
    ∀ a b, ¬(a < T ∧ b < U) → (ComputeAlphaOneSequence lp T U g0).1 a b = g0 a b := by
  intro a b h
  show alphaOuterLoop lp T U _ 1 a b = g0 a b
  rw [alphaOuterLoop_out lp T U _ _ _ _ (by omega),
    alphaRowLoop_out lp U _ _ _ _ (by omega),
    alphaColLoop_out lp T _ _ _ _ (by omega),
    upd_other _ _ _ _ (by omega)]

/-- The score returned by `ComputeAlphaOneSequence` is the forward score. -/
theorem ComputeAlphaOneSequence_score (lp : ℕ → ℕ → LogProbPair) (T U : ℕ)
    (g0 : ℕ → ℕ → ℝ) (hT : 1 ≤ T) (hU : 1 ≤ U) :
    (ComputeAlphaOneSequence lp T U g0).2 = forwardScore lp T U := by
  show alphaOuterLoop lp T U _ 1 (T - 1) (U - 1) + (lp (T - 1) (U - 1)).skip = _
  rw [forwardScore]
  congr 1
  exact ComputeAlphaOneSequence_cell lp T U g0 hT hU (T - 1) (U - 1) (by omega) (by omega)

/-! ### State-passing embedding of `ComputeBetaOneSequence`

The C++ loops run `t` (resp. `u`) downwards; each loop is embedded with the loop
counter as the structural argument, so `betaColLoop … n` performs the iterations
`t = n-1, n-2, …, 0` (the call sites pass `T-1` resp. `U-1`, matching
`for (t = T-2; t >= 0; --t)`). -/

/-- The `u = U-1` boundary loop of `ComputeBetaOneSequence`:
`for (t = T-2; t >= 0; --t) beta(t,U-1) = beta(t+1,U-1) + logProbs(t,U-1).skip`. -/
noncomputable def betaColLoop (lp : ℕ → ℕ → LogProbPair) (U : ℕ)
    (g : ℕ → ℕ → ℝ) : ℕ → ℕ → ℕ → ℝ
  | 0 => g
  | n + 1 =>
      betaColLoop lp U (upd g n (U - 1) (g (n + 1) (U - 1) + (lp n (U - 1)).skip)) n

/-- The `t = T-1` boundary loop of `ComputeBetaOneSequence`:
`for (u = U-2; u >= 0; --u) beta(T-1,u) = beta(T-1,u+1) + logProbs(T-1,u).emit`. -/
noncomputable def betaRowLoop (lp : ℕ → ℕ → LogProbPair) (T : ℕ)
    (g : ℕ → ℕ → ℝ) : ℕ → ℕ → ℕ → ℝ
  | 0 => g
  | m + 1 =>
      betaRowLoop lp T (upd g (T - 1) m (g (T - 1) (m + 1) + (lp (T - 1) m).emit)) m

/-- Inner loop of the interior backward fill at row `t`:
`for (u = U-2; u >= 0; --u) beta(t,u) = lse(beta(t+1,u)+skip(t,u), beta(t,u+1)+emit(t,u))`. -/
noncomputable def betaInnerLoop (lp : ℕ → ℕ → LogProbPair) (t : ℕ)
    (g : ℕ → ℕ → ℝ) : ℕ → ℕ → ℕ → ℝ
  | 0 => g
  | m + 1 =>
      betaInnerLoop lp t
        (upd g t m (lse (g (t + 1) m + (lp t m).skip) (g t (m + 1) + (lp t m).emit))) m

/-- Outer loop of the interior backward fill: `for (t = T-2; t >= 0; --t)`. -/
noncomputable def betaOuterLoop (lp : ℕ → ℕ → LogProbPair) (U : ℕ)
    (g : ℕ → ℕ → ℝ) : ℕ → ℕ → ℕ → ℝ
  | 0 => g
  | n + 1 => betaOuterLoop lp U (betaInnerLoop lp n g (U - 1)) n

/-- `ComputeBetaOneSequence` (`cpu_kernels.h` lines 251-282): fills the backward lattice
into the buffer `g0` and returns the final grid together with the returned
`backward_score = beta(0,0)`. -/
noncomputable def ComputeBetaOneSequence (lp : ℕ → ℕ → LogProbPair) (T U : ℕ)
    (g0 : ℕ → ℕ → ℝ) : (ℕ → ℕ → ℝ) × ℝ :=
  let g1 := upd g0 (T - 1) (U - 1) ((lp (T - 1) (U - 1)).skip)
  let g2 := betaColLoop lp U g1 (T - 1)
  let g3 := betaRowLoop lp T g2 (U - 1)
  let g4 := betaOuterLoop lp U g3 (T - 1)
  (g4, g4 0 0)

theorem betaColLoop_out (lp : ℕ → ℕ → LogProbPair) (U : ℕ) :
    ∀ n g a b, ¬(b = U - 1 ∧ a < n) → betaColLoop lp U g n a b = g a b := by
  intro n
  induction n with
  | zero => intro g a b h; rfl
  | succ n ih =>
      intro g a b h
      rw [betaColLoop, ih _ a b (by omega), upd_other _ _ _ _ (by omega)]

theorem betaColLoop_val (lp : ℕ → ℕ → LogProbPair) (T U : ℕ) :
    ∀ n g, n < T → g n (U - 1) = betaCell lp T U n (U - 1) →
      ∀ k, k ≤ n → betaColLoop lp U g n k (U - 1) = betaCell lp T U k (U - 1) := by
  intro n
  induction n with
  | zero =>
      intro g hn hcell k hk
      have : k = 0 := by omega
      subst this
      exact hcell
  | succ n ih =>
      intro g hn hcell k hk
      have hval : g (n + 1) (U - 1) + (lp n (U - 1)).skip = betaCell lp T U n (U - 1) := by
        rw [betaCell, if_pos (by omega), if_neg (by omega), hcell]
      rcases Nat.lt_or_ge k (n + 1) with hlt | hge
      · rw [betaColLoop]
        exact ih _ (by omega) (by rw [upd_same, hval]) k (by omega)
      · have : k = n + 1 := by omega
        subst this
        rw [betaColLoop, betaColLoop_out lp U _ _ _ _ (by omega),
          upd_other _ _ _ _ (by omega), hcell]

theorem betaRowLoop_out (lp : ℕ → ℕ → LogProbPair) (T : ℕ) :
    ∀ m g a b, ¬(a = T - 1 ∧ b < m) → betaRowLoop lp T g m a b = g a b := by
  intro m
  induction m with
  | zero => intro g a b h; rfl
  | succ m ih =>
      intro g a b h
      rw [betaRowLoop, ih _ a b (by omega), upd_other _ _ _ _ (by omega)]

theorem betaRowLoop_val (lp : ℕ → ℕ → LogProbPair) (T U : ℕ) (hT : 1 ≤ T) :
    ∀ m g, m < U → g (T - 1) m = betaCell lp T U (T - 1) m →
      ∀ k, k ≤ m → betaRowLoop lp T g m (T - 1) k = betaCell lp T U (T - 1) k := by
  intro m
  induction m with
  | zero =>
      intro g hm hcell k hk
      have : k = 0 := by omega
      subst this
      exact hcell
  | succ m ih =>
      intro g hm hcell k hk
      have hval : g (T - 1) (m + 1) + (lp (T - 1) m).emit = betaCell lp T U (T - 1) m := by
        rw [betaCell, if_neg (by omega), if_pos (by omega), hcell]
      rcases Nat.lt_or_ge k (m + 1) with hlt | hge
      · rw [betaRowLoop]
        exact ih _ (by omega) (by rw [upd_same, hval]) k (by omega)
      · have : k = m + 1 := by omega
        subst this
        rw [betaRowLoop, betaRowLoop_out lp T _ _ _ _ (by omega),
          upd_other _ _ _ _ (by omega), hcell]

theorem betaInnerLoop_out (lp : ℕ → ℕ → LogProbPair) (t : ℕ) :
    ∀ m g a b, ¬(a = t ∧ b < m) → betaInnerLoop lp t g m a b = g a b := by
  intro m
  induction m with
  | zero => intro g a b h; rfl
  | succ m ih =>
      intro g a b h
      rw [betaInnerLoop, ih _ a b (by omega), upd_other _ _ _ _ (by omega)]

theorem betaInnerLoop_val (lp : ℕ → ℕ → LogProbPair) (T U : ℕ) (t : ℕ) (htT : t + 1 < T) :
    ∀ m g, m < U →
      (∀ b, b < U → g (t + 1) b = betaCell lp T U (t + 1) b) →
      g t m = betaCell lp T U t m →
      ∀ k, k ≤ m → betaInnerLoop lp t g m t k = betaCell lp T U t k := by
  intro m
  induction m with
  | zero =>
      intro g hm hrow hcell k hk
      have : k = 0 := by omega
      subst this
      exact hcell
  | succ m ih =>
      intro g hm hrow hcell k hk
      have hval :
          lse (g (t + 1) m + (lp t m).skip) (g t (m + 1) + (lp t m).emit) =
            betaCell lp T U t m := by
        rw [betaCell, if_pos htT, if_pos (by omega), hrow m (by omega), hcell]
      rcases Nat.lt_or_ge k (m + 1) with hlt | hge
      · rw [betaInnerLoop]
        refine ih _ (by omega) ?_ (by rw [upd_same, hval]) k (by omega)
        intro b hb
        rw [upd_other _ _ _ _ (by omega), hrow b hb]
      · have : k = m + 1 := by omega
        subst this
        rw [betaInnerLoop, betaInnerLoop_out lp t _ _ _ _ (by omega),
          upd_other _ _ _ _ (by omega), hcell]

theorem betaOuterLoop_out (lp : ℕ → ℕ → LogProbPair) (U : ℕ) :
    ∀ n g a b, ¬(a < n ∧ b < U - 1) → betaOuterLoop lp U g n a b = g a b := by
  intro n
  induction n with
  | zero => intro g a b h; rfl
  | succ n ih =>
      intro g a b h
      rw [betaOuterLoop, ih _ a b (by omega)]
      exact betaInnerLoop_out lp n (U - 1) g a b (by omega)

theorem betaOuterLoop_val (lp : ℕ → ℕ → LogProbPair) (T U : ℕ) (hU : 1 ≤ U) :
    ∀ n g, n < T →
      (∀ a b, n ≤ a → a < T → b < U → g a b = betaCell lp T U a b) →
      (∀ a, a < T → g a (U - 1) = betaCell lp T U a (U - 1)) →
      ∀ a b, a < T → b < U → betaOuterLoop lp U g n a b = betaCell lp T U a b := by
  intro n
  induction n with
  | zero =>
      intro g hn hdone hcol a b ha hb
      exact hdone a b (by omega) ha hb
  | succ n ih =>
      intro g hn hdone hcol a b ha hb
      have hrown : ∀ b', b' < U → betaInnerLoop lp n g (U - 1) n b' = betaCell lp T U n b' := by
        intro b' hb'
        rcases Nat.lt_or_ge b' (U - 1) with hlt | hge
        · exact betaInnerLoop_val lp T U n (by omega) (U - 1) g (by omega)
            (fun b'' hb'' => hdone (n + 1) b'' le_rfl (by omega) hb'')
            (hcol n (by omega)) b' (by omega)
        · have : b' = U - 1 := by omega
          subst this
          rw [betaInnerLoop_out lp n _ _ _ _ (by omega), hcol n (by omega)]
      rw [betaOuterLoop]
      refine ih _ (by omega) ?_ ?_ a b ha hb
      · intro a' b' ha' ha'T hb'
        rcases Nat.lt_or_ge a' (n + 1) with hlt | hge
        · have : a' = n := by omega
          subst this
          exact hrown b' hb'
        · rw [betaInnerLoop_out lp n _ _ _ _ (by omega)]
          exact hdone a' b' (by omega) ha'T hb'
      · intro a' ha'
        rcases Nat.lt_or_ge a' (n + 1) with hlt | hge
        · rcases Nat.lt_or_ge a' n with h2 | h2
          · rw [betaInnerLoop_out lp n _ _ _ _ (by omega)]
            exact hcol a' ha'
          · have : a' = n := by omega
            subst this
            exact hrown (U - 1) (by omega)
        · rw [betaInnerLoop_out lp n _ _ _ _ (by omega)]
          exact hcol a' ha'

/-- After `ComputeBetaOneSequence`, every in-range cell holds the `betaCell` recurrence. -/
theorem ComputeBetaOneSequence_cell (lp : ℕ → ℕ → LogProbPair) (T U : ℕ)
    (g0 : ℕ → ℕ → ℝ) (hT : 1 ≤ T) (hU : 1 ≤ U) :
    ∀ t u, t < T → u < U → (ComputeBetaOneSequence lp T U g0).1 t u = betaCell lp T U t u := by
  intro t u htT huU
  have hg1 : upd g0 (T - 1) (U - 1) ((lp (T - 1) (U - 1)).skip) (T - 1) (U - 1) =
      betaCell lp T U (T - 1) (U - 1) := by
    rw [upd_same, betaCell, if_neg (by omega), if_neg (by omega)]
  have hcol : ∀ a, a < T →
      betaColLoop lp U (upd g0 (T - 1) (U - 1) ((lp (T - 1) (U - 1)).skip)) (T - 1) a (U - 1) =
        betaCell lp T U a (U - 1) := by
    intro a haT
    exact betaColLoop_val lp T U (T - 1) _ (by omega) hg1 a (by omega)
  have hrow : ∀ b, b < U →
      betaRowLoop lp T
          (betaColLoop lp U (upd g0 (T - 1) (U - 1) ((lp (T - 1) (U - 1)).skip)) (T - 1))
          (U - 1) (T - 1) b =
        betaCell lp T U (T - 1) b := by
    intro b hbU
    exact betaRowLoop_val lp T U hT (U - 1) _ (by omega) (hcol (T - 1) (by omega)) b (by omega)
  have hcol' : ∀ a, a < T →
      betaRowLoop lp T
          (betaColLoop lp U (upd g0 (T - 1) (U - 1) ((lp (T - 1) (U - 1)).skip)) (T - 1))
          (U - 1) a (U - 1) =
        betaCell lp T U a (U - 1) := by
    intro a haT
    rcases Nat.eq_or_lt_of_le (show a ≤ T - 1 from by omega) with rfl | hlt
    · exact hrow (U - 1) (by omega)
    · rw [betaRowLoop_out lp T _ _ _ _ (by omega)]
      exact hcol a haT
  exact betaOuterLoop_val lp T U hU (T - 1) _ (by omega)
    (fun a b ha haT hb => by
      have : a = T - 1 := by omega
      subst this
      exact hrow b hb)
    hcol' t u htT huU

/-- `ComputeBetaOneSequence` never touches cells outside `t < T ∧ u < U`. -/
theorem ComputeBetaOneSequence_frame (lp : ℕ → ℕ → LogProbPair) (T U : ℕ)
    (g0 : ℕ → ℕ → ℝ) (hT : 1 ≤ T) (hU : 1 ≤ U) :
    ∀ a b, ¬(a < T ∧ b < U) → (ComputeBetaOneSequence lp T U g0).1 a b = g0 a b := by
  intro a b h
  show betaOuterLoop lp U _ (T - 1) a b = g0 a b
  rw [betaOuterLoop_out lp U _ _ _ _ (by omega),
    betaRowLoop_out lp T _ _ _ _ (by omega),
    betaColLoop_out lp U _ _ _ _ (by omega),
    upd_other _ _ _ _ (by omega)]

/-- The score returned by `ComputeBetaOneSequence` is the backward score. -/
theorem ComputeBetaOneSequence_score (lp : ℕ → ℕ → LogProbPair) (T U : ℕ)
    (g0 : ℕ → ℕ → ℝ) (hT : 1 ≤ T) (hU : 1 ≤ U) :
    (ComputeBetaOneSequence lp T U g0).2 = backwardScore lp T U := by
  show betaOuterLoop lp U _ (T - 1) 0 0 = _
  rw [backwardScore]
  exact ComputeBetaOneSequence_cell lp T U g0 hT hU 0 0 (by omega) (by omega)

/-! ### The batch driver `ComputeAlphasBetas` (dense path) -/

/-- Result of the dense `ComputeAlphasBetas` driver: per-sample alpha and beta grids and
the per-sample costs. -/
structure ABResult where
  alphas : ℕ → ℕ → ℕ → ℝ
  betas : ℕ → ℕ → ℕ → ℝ
  costs : ℕ → ℝ

/-- `ComputeAlphasBetas` (`cpu_kernels.h` lines 389-441), dense path (`wpEnds == nullptr`).
Task `2b+1` runs `ComputeAlphaOneSequence` and task `2b` runs `ComputeBetaOneSequence` for
sample `b`, both with `tgtLengths[b] + 1` (prepended blank) as the lattice width; the loop
`costs[b] = -scores[b << 1]` negates the even task's score, i.e. the beta task's
`backward_score`. `alphas0`/`betas0` are the per-sample views of the workspace buffers
before the call. -/
noncomputable def ComputeAlphasBetas (lp : ℕ → ℕ → ℕ → LogProbPair)
    (srcLengths tgtLengths : ℕ → ℕ) (alphas0 betas0 : ℕ → ℕ → ℕ → ℝ) : ABResult where
  alphas := fun b =>
    (ComputeAlphaOneSequence (lp b) (srcLengths b) (tgtLengths b + 1) (alphas0 b)).1
  betas := fun b =>
    (ComputeBetaOneSequence (lp b) (srcLengths b) (tgtLengths b + 1) (betas0 b)).1
  costs := fun b =>
    -(ComputeBetaOneSequence (lp b) (srcLengths b) (tgtLengths b + 1) (betas0 b)).2

/-- C1: for every batch sample `b` with `srcLengths[b] ≥ 1` (and `tgtLengths[b] ≥ 0`,
automatic over `ℕ`; all values finite in the exact-arithmetic embedding), the cost written
by `ComputeAlphasBetas` satisfies `costs[b] = -forward_score_b`, where `forward_score_b`
is the value `alpha(T-1,U-1) + logProbs(T-1,U-1).skip` returned by
`ComputeAlphaOneSequence` for that sample. (The code stores the negated backward score;
in exact arithmetic it coincides with the negated forward score.) -/
theorem C1_costs_eq_neg_forwardScore (lp : ℕ → ℕ → ℕ → LogProbPair)
    (srcLengths tgtLengths : ℕ → ℕ) (alphas0 betas0 : ℕ → ℕ → ℕ → ℝ) (b : ℕ)
    (hsrc : 1 ≤ srcLengths b) :
    (ComputeAlphasBetas lp srcLengths tgtLengths alphas0 betas0).costs b =
      -(ComputeAlphaOneSequence (lp b) (srcLengths b) (tgtLengths b + 1) (alphas0 b)).2 := by
  show -(ComputeBetaOneSequence (lp b) (srcLengths b) (tgtLengths b + 1) (betas0 b)).2 = _
  rw [ComputeBetaOneSequence_score _ _ _ _ hsrc (by omega),
    ComputeAlphaOneSequence_score _ _ _ _ hsrc (by omega),
    score_identity _ _ _ hsrc (by omega)]

theorem C1_costs_eq_neg_forwardScore_witness :
    1 ≤ 1 ∧
      (ComputeAlphasBetas (fun _ _ _ => ⟨0, 0⟩) (fun _ => 1) (fun _ => 0)
            (fun _ _ _ => 0) (fun _ _ _ => 0)).costs 0 =
        -(ComputeAlphaOneSequence (fun _ _ => ⟨0, 0⟩) 1 1 (fun _ _ => 0)).2 :=
  ⟨le_rfl,
    C1_costs_eq_neg_forwardScore (fun _ _ _ => ⟨0, 0⟩) (fun _ => 1) (fun _ => 0)
      (fun _ _ _ => 0) (fun _ _ _ => 0) 0 le_rfl⟩

/-- C2: for every `T ≥ 1`, `U ≥ 1` and every logProbs table, in exact real arithmetic the
forward score returned by `ComputeAlphaOneSequence` (which is
`alpha(T-1,U-1) + logProbs(T-1,U-1).skip`) equals the backward score `beta(0,0)` returned
by `ComputeBetaOneSequence` on the same logProbs (whatever the prior buffer contents). -/
theorem C2_forward_eq_backward (lp : ℕ → ℕ → LogProbPair) (T U : ℕ)
    (g0a g0b : ℕ → ℕ → ℝ) (hT : 1 ≤ T) (hU : 1 ≤ U) :
    (ComputeAlphaOneSequence lp T U g0a).2 = (ComputeBetaOneSequence lp T U g0b).2 := by
  rw [ComputeAlphaOneSequence_score lp T U g0a hT hU,
    ComputeBetaOneSequence_score lp T U g0b hT hU, score_identity lp T U hT hU]

theorem C2_forward_eq_backward_witness :
    1 ≤ 2 ∧
      (ComputeAlphaOneSequence (fun _ _ => ⟨0, 0⟩) 2 2 (fun _ _ => 0)).2 =
        (ComputeBetaOneSequence (fun _ _ => ⟨0, 0⟩) 2 2 (fun _ _ => 1)).2 :=
  ⟨by omega,
    C2_forward_eq_backward (fun _ _ => ⟨0, 0⟩) 2 2 (fun _ _ => 0) (fun _ _ => 1)
      (by omega) (by omega)⟩

/-- C10 (implicit): the unrestricted per-sample recurrences write only lattice cells
`(t, u)` with `t < srcLen` and `u < tgtLen` of their output views; every element outside
that region retains the contents it held before the call, for both
`ComputeAlphaOneSequence` and `ComputeBetaOneSequence`. -/
theorem C10_unrestricted_frame (lp : ℕ → ℕ → LogProbPair) (T U : ℕ)
    (g0a g0b : ℕ → ℕ → ℝ) (hT : 1 ≤ T) (hU : 1 ≤ U) :
    ∀ a b, ¬(a < T ∧ b < U) →
      (ComputeAlphaOneSequence lp T U g0a).1 a b = g0a a b ∧
        (ComputeBetaOneSequence lp T U g0b).1 a b = g0b a b :=
  fun a b h =>
    ⟨ComputeAlphaOneSequence_frame lp T U g0a hT hU a b h,
      ComputeBetaOneSequence_frame lp T U g0b hT hU a b h⟩

theorem C10_unrestricted_frame_witness :
    (1 ≤ 2 ∧ ¬((3 : ℕ) < 2 ∧ (0 : ℕ) < 2)) ∧
      (ComputeAlphaOneSequence (fun _ _ => ⟨0, 0⟩) 2 2 (fun _ _ => 5)).1 3 0 = 5 ∧
        (ComputeBetaOneSequence (fun _ _ => ⟨0, 0⟩) 2 2 (fun _ _ => 7)).1 3 0 = 7 :=
  ⟨⟨by omega, by omega⟩,
    C10_unrestricted_frame (fun _ _ => ⟨0, 0⟩) 2 2 (fun _ _ => 5) (fun _ _ => 7)
      (by omega) (by omega) 3 0 (by omega)⟩

/-! ### Status codes and the CPU denominator stage `LogSumExp2D` -/

/-- Modelled from the spec: the status enumeration of §6 (`types.h` is not under `src/`),
with the constructor names used by `gpu/gpu_transducer.h`. -/
inductive status_t where
  | SUCCESS
  | COMPUTE_DENOMINATOR_REDUCE_MAX_FAILED
  | COMPUTE_DENOMINATOR_REDUCE_SUM_FAILED
  | COMPUTE_LOG_PROBS_FAILED
  | COMPUTE_ALPHAS_BETAS_COSTS_FAILED
  | COMPUTE_GRADIENTS_FAILED
deriving DecidableEq

/-- The running maximum of one row of `LogSumExp2D` (`cpu_kernels.h` lines 73-77):
`max = logits[base]`, then `max = std::max(max, logits[base + j])` for `j = 1 … D-1`. -/
def rowMax (x : ℕ → ℝ) (base D : ℕ) : ℝ :=
  List.foldl (fun m j => max m (x (base + j))) (x base) (List.range' 1 (D - 1))

/-- The accumulation `sum = sum + exp(logits[base + j] - m)` over `j = 0 … D-1`
(`cpu_kernels.h` lines 78-81). -/
noncomputable def rowSumExp (x : ℕ → ℝ) (base D : ℕ) (m : ℝ) : ℝ :=
  List.foldl (fun s j => s + Real.exp (x (base + j) - m)) 0 (List.range D)

/-- CPU `LogSumExp2D` (`cpu_kernels.h` lines 71-86): for a `[N, D]` matrix (row `i`
starting at flat offset `i * D`) produce the per-row stable log-sum-exp and return
`SUCCESS` unconditionally. -/
noncomputable def LogSumExp2D (N D : ℕ) (logits : ℕ → ℝ) : (ℕ → ℝ) × status_t :=
  (fun i =>
    rowMax logits (i * D) D +
      Real.log (rowSumExp logits (i * D) D (rowMax logits (i * D) D)),
    status_t.SUCCESS)

theorem foldl_max_le (x : ℕ → ℝ) (base : ℕ) :
    ∀ (n : ℕ) (a : ℝ),
      (a ≤ List.foldl (fun m j => max m (x (base + j))) a (List.range' 1 n)) ∧
      (∀ j, 1 ≤ j → j ≤ n →
        x (base + j) ≤ List.foldl (fun m j => max m (x (base + j))) a (List.range' 1 n)) ∧
      ((List.foldl (fun m j => max m (x (base + j))) a (List.range' 1 n)) = a ∨
        ∃ j, 1 ≤ j ∧ j ≤ n ∧
          (List.foldl (fun m j => max m (x (base + j))) a (List.range' 1 n)) = x (base + j)) := by
  intro n
  induction n with
  | zero =>
      intro a
      refine ⟨le_rfl, ?_, Or.inl rfl⟩
      intro j h1 h2; omega
  | succ n ih =>
      intro a
      have hconcat : List.range' 1 (n + 1) = List.range' 1 n ++ [1 + n] :=
        List.range'_1_concat 1 n
      rw [hconcat, List.foldl_append]
      obtain ⟨iha, ihb, ihc⟩ := ih a
      simp only [List.foldl_cons, List.foldl_nil]
      refine ⟨le_trans iha (le_max_left _ _), ?_, ?_⟩
      · intro j h1 h2
        rcases Nat.lt_or_ge j (n + 1) with hlt | hge
        · exact le_trans (ihb j h1 (by omega)) (le_max_left _ _)
        · have : j = 1 + n := by omega
          subst this
          exact le_max_right _ _
      · rcases max_cases (List.foldl (fun m j => max m (x (base + j))) a (List.range' 1 n))
          (x (base + (1 + n))) with ⟨heq, _⟩ | ⟨heq, _⟩
        · rcases ihc with h | ⟨j, hj1, hj2, hj3⟩
          · exact Or.inl (by rw [heq, h])
          · exact Or.inr ⟨j, hj1, by omega, by rw [heq, hj3]⟩
        · exact Or.inr ⟨1 + n, by omega, by omega, heq⟩

/-- `rowMax` is the maximum of the row. -/
theorem rowMax_eq_sup (x : ℕ → ℝ) (base D : ℕ) (hD : 1 ≤ D) :
    rowMax x base D =
      (Finset.range D).sup' (Finset.nonempty_range_iff.mpr (by omega))
        (fun j => x (base + j)) := by
  obtain ⟨ha, hb, hc⟩ := foldl_max_le x base (D - 1) (x base)
  apply le_antisymm
  · rcases hc with h | ⟨j, hj1, hj2, hj3⟩
    · rw [rowMax, h]
      exact Finset.le_sup' (fun j => x (base + j)) (Finset.mem_range.mpr (by omega : 0 < D))
    · rw [rowMax, hj3]
      exact Finset.le_sup' (fun j => x (base + j)) (Finset.mem_range.mpr (by omega))
  · refine Finset.sup'_le _ _ ?_
    intro j hj
    have hjD : j < D := Finset.mem_range.mp hj
    rcases Nat.eq_zero_or_pos j with rfl | hj0
    · exact ha
    · exact hb j hj0 (by omega)

theorem foldl_add_eq (h : ℕ → ℝ) :
    ∀ (l : List ℕ) (s : ℝ), List.foldl (fun s j => s + h j) s l = s + (l.map h).sum := by
  intro l
  induction l with
  | nil => intro s; simp
  | cons j l ih => intro s; rw [List.foldl_cons, ih, List.map_cons, List.sum_cons]; ring

/-- `rowSumExp` is the indexed sum of the shifted exponentials. -/
theorem rowSumExp_eq_sum (x : ℕ → ℝ) (base D : ℕ) (m : ℝ) :
    rowSumExp x base D m = ∑ j ∈ Finset.range D, Real.exp (x (base + j) - m) := by
  rw [rowSumExp, foldl_add_eq, zero_add]
  induction D with
  | zero => simp
  | succ D ih =>
      rw [List.range_succ, List.map_append, List.sum_append, ih, Finset.sum_range_succ]
      simp

/-- The shift by any `m` cancels: `m + log Σ exp(x_j - m) = log Σ exp x_j` (`D ≥ 1`). -/
theorem shift_cancel (f : ℕ → ℝ) (D : ℕ) (hD : 1 ≤ D) (m : ℝ) :
    m + Real.log (∑ j ∈ Finset.range D, Real.exp (f j - m)) =
      Real.log (∑ j ∈ Finset.range D, Real.exp (f j)) := by
  have hpos : (0 : ℝ) < ∑ j ∈ Finset.range D, Real.exp (f j) :=
    Finset.sum_pos (fun j _ => Real.exp_pos _)
      (Finset.nonempty_range_iff.mpr (by omega))
  have hsum : ∑ j ∈ Finset.range D, Real.exp (f j - m) =
      (∑ j ∈ Finset.range D, Real.exp (f j)) / Real.exp m := by
    rw [Finset.sum_div]
    exact Finset.sum_congr rfl fun j _ => Real.exp_sub (f j) m
  rw [hsum, Real.log_div (ne_of_gt hpos) (Real.exp_ne_zero m), Real.log_exp]
  ring

/-- C5: for every `N ≥ 1`, `D ≥ 1` and every finite `[N, D]` input, `LogSumExp2D`
produces, for every row `i < N`, `output[i] = max_j x[i,j] + log Σ_j exp(x[i,j] − max_j)`,
which equals `log Σ_j exp(x[i,j])`, and returns `SUCCESS`. -/
theorem C5_LogSumExp2D_correct (N D : ℕ) (logits : ℕ → ℝ) (i : ℕ)
    (hD : 1 ≤ D) (hN : i < N) :
    ((LogSumExp2D N D logits).1 i =
        (Finset.range D).sup' (Finset.nonempty_range_iff.mpr (by omega))
            (fun j => logits (i * D + j)) +
          Real.log (∑ j ∈ Finset.range D,
            Real.exp (logits (i * D + j) -
              (Finset.range D).sup' (Finset.nonempty_range_iff.mpr (by omega))
                (fun j => logits (i * D + j)))) ∧
      (LogSumExp2D N D logits).1 i =
        Real.log (∑ j ∈ Finset.range D, Real.exp (logits (i * D + j)))) ∧
    (LogSumExp2D N D logits).2 = status_t.SUCCESS := by
  have h1 : (LogSumExp2D N D logits).1 i =
      rowMax logits (i * D) D +
        Real.log (∑ j ∈ Finset.range D,
          Real.exp (logits (i * D + j) - rowMax logits (i * D) D)) := by
    show rowMax logits (i * D) D +
        Real.log (rowSumExp logits (i * D) D (rowMax logits (i * D) D)) = _
    rw [rowSumExp_eq_sum]
  refine ⟨⟨?_, ?_⟩, rfl⟩
  · rw [h1, rowMax_eq_sup logits (i * D) D hD]
  · rw [h1, shift_cancel (fun j => logits (i * D + j)) D hD]

theorem C5_LogSumExp2D_correct_witness :
    ((1 : ℕ) ≤ 1 ∧ (0 : ℕ) < 1) ∧
      (LogSumExp2D 1 1 (fun _ => 0)).1 0 =
          Real.log (∑ j ∈ Finset.range 1, Real.exp ((fun _ => (0 : ℝ)) (0 * 1 + j))) ∧
        (LogSumExp2D 1 1 (fun _ => 0)).2 = status_t.SUCCESS :=
  ⟨⟨le_rfl, by omega⟩,
    (C5_LogSumExp2D_correct 1 1 (fun _ => 0) 0 le_rfl (by omega)).1.2,
    (C5_LogSumExp2D_correct 1 1 (fun _ => 0) 0 le_rfl (by omega)).2⟩

/-! ### State-passing embedding of `ComputeGradientsOneSequence`

`cpu_kernels.h` lines 443-519. The gradients buffer may alias the logits buffer
(`&gradients({0,0,0}) == &logits({0,0,0})`, the `inPlace` flag below); reads of
`logits({t,u,d})` then come from the evolving buffer. -/

/-- One store `grid[t][u][d] = v` into a `[maxT, maxU, D]` view. -/
def upd3 (g : ℕ → ℕ → ℕ → ℝ) (t u d : ℕ) (v : ℝ) : ℕ → ℕ → ℕ → ℝ :=
  fun a b c => if a = t ∧ b = u ∧ c = d then v else g a b c

theorem upd3_same (g : ℕ → ℕ → ℕ → ℝ) (t u d : ℕ) (v : ℝ) : upd3 g t u d v t u d = v := by
  simp [upd3]

theorem upd3_other (g : ℕ → ℕ → ℕ → ℝ) (t u d : ℕ) (v : ℝ) {a b c : ℕ}
    (h : ¬(a = t ∧ b = u ∧ c = d)) : upd3 g t u d v a b c = g a b c := by
  simp only [upd3, if_neg h]

/-- Inputs of one `ComputeGradientsOneSequence` call. `inPlace` embeds the pointer
equality `&gradients({0,0,0}) == &logits({0,0,0})` checked at line 501. -/
structure GradArgs where
  T : ℕ
  U : ℕ
  D : ℕ
  blank : ℕ
  clamp : ℝ
  maxT : ℕ
  maxU : ℕ
  targets : ℕ → ℕ
  logits : ℕ → ℕ → ℕ → ℝ
  denom : ℕ → ℕ → ℝ
  alpha : ℕ → ℕ → ℝ
  beta : ℕ → ℕ → ℝ
  inPlace : Bool

/-- The value stored at `(t,u,d)` before clamping, as a function of the logit value `x`
read for this cell: the four-branch formula of lines 475-487 with
`g = x + (alpha(t,u) + cost - denom(t,u))` and `cost = -beta(0,0)`. -/
noncomputable def gradRaw (A : GradArgs) (x : ℝ) (t u d : ℕ) : ℝ :=
  let g := x + (A.alpha t u + -(A.beta 0 0) - A.denom t u)
  if d = A.blank ∧ t = A.T - 1 ∧ u = A.U - 1 then
    Real.exp (g + A.beta t u) - Real.exp g
  else if d = A.blank ∧ t < A.T - 1 then
    Real.exp (g + A.beta t u) - Real.exp (g + A.beta (t + 1) u)
  else if u < A.U - 1 ∧ d = A.targets u then
    Real.exp (g + A.beta t u) - Real.exp (g + A.beta t (u + 1))
  else Real.exp (g + A.beta t u)

/-- The clamp of lines 489-494 applied to a stored value. -/
noncomputable def clampApply (clamp v : ℝ) : ℝ :=
  if 0 < clamp then max (min v clamp) (-clamp) else v

/-- Body of the innermost `d` loop: read the logit (from the buffer itself when in
place), store the raw gradient, then clamp in two further stores when `clamp > 0`. -/
noncomputable def gradCellStep (A : GradArgs) (buf : ℕ → ℕ → ℕ → ℝ) (t u d : ℕ) :
    ℕ → ℕ → ℕ → ℝ :=
  let x := if A.inPlace then buf t u d else A.logits t u d
  let b1 := upd3 buf t u d (gradRaw A x t u d)
  if 0 < A.clamp then
    let b2 := upd3 b1 t u d (min (b1 t u d) A.clamp)
    upd3 b2 t u d (max (b2 t u d) (-A.clamp))
  else b1

theorem gradCellStep_other (A : GradArgs) (buf : ℕ → ℕ → ℕ → ℝ) (t u d : ℕ)
    {a b c : ℕ} (h : ¬(a = t ∧ b = u ∧ c = d)) : gradCellStep A buf t u d a b c = buf a b c := by
  rw [gradCellStep]
  by_cases hc : 0 < A.clamp
  · simp only [if_pos hc]
    rw [upd3_other _ _ _ _ _ h, upd3_other _ _ _ _ _ h, upd3_other _ _ _ _ _ h]
  · simp only [if_neg hc]
    rw [upd3_other _ _ _ _ _ h]

theorem gradCellStep_same (A : GradArgs) (buf : ℕ → ℕ → ℕ → ℝ) (t u d : ℕ) :
    gradCellStep A buf t u d t u d =
      clampApply A.clamp
        (gradRaw A (if A.inPlace then buf t u d else A.logits t u d) t u d) := by
  rw [gradCellStep, clampApply]
  by_cases hc : 0 < A.clamp
  · simp only [if_pos hc]
    rw [upd3_same, upd3_same, upd3_same]
  · simp only [if_neg hc]
    rw [upd3_same]

/-- `for (d = 0; d < D; ++d)` at cell `(t, u)`. -/
noncomputable def gradDLoop (A : GradArgs) (buf : ℕ → ℕ → ℕ → ℝ) (t u d : ℕ) :
    ℕ → ℕ → ℕ → ℝ :=
  if d < A.D then gradDLoop A (gradCellStep A buf t u d) t u (d + 1) else buf
termination_by A.D - d
decreasing_by omega

/-- `for (u = 0; u < U; ++u)` at row `t`. -/
noncomputable def gradULoop (A : GradArgs) (buf : ℕ → ℕ → ℕ → ℝ) (t u : ℕ) :
    ℕ → ℕ → ℕ → ℝ :=
  if u < A.U then gradULoop A (gradDLoop A buf t u 0) t (u + 1) else buf
termination_by A.U - u
decreasing_by omega

/-- `for (t = 0; t < T; ++t)`. -/
noncomputable def gradTLoop (A : GradArgs) (buf : ℕ → ℕ → ℕ → ℝ) (t : ℕ) :
    ℕ → ℕ → ℕ → ℝ :=
  if t < A.T then gradTLoop A (gradULoop A buf t 0) (t + 1) else buf
termination_by A.T - t
decreasing_by omega

/-- The padding-zeroing loops of lines 504-517: a triple loop storing the constant `0`
over the rectangle `[tLo, tHi) × [uLo, uHi) × [0, D)`; it performs no reads, so it is
embedded directly as the resulting grid. -/
def zeroRegion (buf : ℕ → ℕ → ℕ → ℝ) (tLo tHi uLo uHi D : ℕ) : ℕ → ℕ → ℕ → ℝ :=
  fun a b c => if tLo ≤ a ∧ a < tHi ∧ uLo ≤ b ∧ b < uHi ∧ c < D then 0 else buf a b c

/-- `ComputeGradientsOneSequence` (lines 443-519): run the gradient fill from the prior
gradients-buffer contents `g0`, then, only when the buffer aliases the logits, zero the
`t ∈ [T, maxT)` and `u ∈ [U, maxU)` padding. -/
noncomputable def ComputeGradientsOneSequence (A : GradArgs) (g0 : ℕ → ℕ → ℕ → ℝ) :
    ℕ → ℕ → ℕ → ℝ :=
  let g1 := gradTLoop A g0 0
  if A.inPlace then
    zeroRegion (zeroRegion g1 A.T A.maxT 0 A.maxU A.D) 0 A.T A.U A.maxU A.D
  else g1

theorem gradDLoop_out (A : GradArgs) :
    ∀ buf t u d a b c, ¬(a = t ∧ b = u ∧ d ≤ c ∧ c < A.D) →
      gradDLoop A buf t u d a b c = buf a b c := by
  intro buf t u d
  induction buf, t, u, d using gradDLoop.induct A with
  | case1 buf t u d hd ih =>
      intro a b c h
      rw [gradDLoop, if_pos hd, ih a b c (by omega), gradCellStep_other _ _ _ _ _ (by omega)]
  | case2 buf t u d hd =>
      intro a b c h
      rw [gradDLoop, if_neg hd]

theorem gradDLoop_val (A : GradArgs) :
    ∀ buf t u d c, d ≤ c → c < A.D →
      gradDLoop A buf t u d t u c =
        clampApply A.clamp
          (gradRaw A (if A.inPlace then buf t u c else A.logits t u c) t u c) := by
  intro buf t u d
  induction buf, t, u, d using gradDLoop.induct A with
  | case1 buf t u d hd ih =>
      intro c hdc hcD
      rcases eq_or_lt_of_le hdc with rfl | hlt
      · rw [gradDLoop, if_pos hd, gradDLoop_out A _ _ _ _ _ _ _ (by omega), gradCellStep_same]
      · rw [gradDLoop, if_pos hd, ih c (by omega) hcD,
          gradCellStep_other _ _ _ _ _ (by omega)]
  | case2 buf t u d hd =>
      intro c hdc hcD
      omega

theorem gradULoop_out (A : GradArgs) :
    ∀ buf t u a b c, ¬(a = t ∧ u ≤ b ∧ b < A.U ∧ c < A.D) →
      gradULoop A buf t u a b c = buf a b c := by
  intro buf t u
  induction buf, t, u using gradULoop.induct A with
  | case1 buf t u hu ih =>
      intro a b c h
      rw [gradULoop, if_pos hu, ih a b c (by omega), gradDLoop_out A _ _ _ _ _ _ _ (by omega)]
  | case2 buf t u hu =>
      intro a b c h
      rw [gradULoop, if_neg hu]

theorem gradULoop_val (A : GradArgs) :
    ∀ buf t u b c, u ≤ b → b < A.U → c < A.D →
      gradULoop A buf t u t b c =
        clampApply A.clamp
          (gradRaw A (if A.inPlace then buf t b c else A.logits t b c) t b c) := by
  intro buf t u
  induction buf, t, u using gradULoop.induct A with
  | case1 buf t u hu ih =>
      intro b c hub hbU hcD
      rcases eq_or_lt_of_le hub with rfl | hlt
      · rw [gradULoop, if_pos hu, gradULoop_out A _ _ _ _ _ _ (by omega),
          gradDLoop_val A buf t u 0 c (by omega) hcD]
      · rw [gradULoop, if_pos hu, ih b c (by omega) hbU hcD,
          gradDLoop_out A _ _ _ _ _ _ _ (by omega)]
  | case2 buf t u hu =>
      intro b c hub hbU hcD
      omega

theorem gradTLoop_out (A : GradArgs) :
    ∀ buf t a b c, ¬(t ≤ a ∧ a < A.T ∧ b < A.U ∧ c < A.D) → gradTLoop A buf t a b c = buf a b c := by
  intro buf t
  induction buf, t using gradTLoop.induct A with
  | case1 buf t ht ih =>
      intro a b c h
      rw [gradTLoop, if_pos ht, ih a b c (by omega), gradULoop_out A _ _ _ _ _ _ (by omega)]
  | case2 buf t ht =>
      intro a b c h
      rw [gradTLoop, if_neg ht]

theorem gradTLoop_val (A : GradArgs) :
    ∀ buf t a b c, t ≤ a → a < A.T → b < A.U → c < A.D →
      gradTLoop A buf t a b c =
        clampApply A.clamp
          (gradRaw A (if A.inPlace then buf a b c else A.logits a b c) a b c) := by
  intro buf t
  induction buf, t using gradTLoop.induct A with
  | case1 buf t ht ih =>
      intro a b c hta haT hbU hcD
      rcases eq_or_lt_of_le hta with rfl | hlt
      · rw [gradTLoop, if_pos ht, gradTLoop_out A _ _ _ _ _ (by omega),
          gradULoop_val A buf t 0 b c (by omega) hbU hcD]
      · rw [gradTLoop, if_pos ht, ih a b c (by omega) haT hbU hcD,
          gradULoop_out A _ _ _ _ _ _ (by omega)]
  | case2 buf t ht =>
      intro a b c hta haT hbU hcD
      omega

/-- In-range cells of the gradients buffer after `ComputeGradientsOneSequence`: the
clamped four-branch formula over the pre-call logit values. (`hcoh` records that an
aliased gradient buffer holds the logits before the call; each cell's logit is read
before that cell is overwritten, and never again afterwards.) -/
theorem ComputeGradientsOneSequence_inRange (A : GradArgs) (g0 : ℕ → ℕ → ℕ → ℝ)
    (hcoh : A.inPlace = true → g0 = A.logits) :
    ∀ t u d, t < A.T → u < A.U → d < A.D →
      ComputeGradientsOneSequence A g0 t u d =
        clampApply A.clamp (gradRaw A (A.logits t u d) t u d) := by
  intro t u d htT huU hdD
  have hfill : gradTLoop A g0 0 t u d =
      clampApply A.clamp (gradRaw A (A.logits t u d) t u d) := by
    rw [gradTLoop_val A g0 0 t u d (by omega) htT huU hdD]
    by_cases hip : A.inPlace = true
    · rw [hcoh hip, if_pos hip]
    · rw [if_neg hip]
  simp only [ComputeGradientsOneSequence]
  by_cases hip : A.inPlace = true
  · rw [if_pos hip]
    simp only [zeroRegion]
    rw [if_neg (by omega : ¬(0 ≤ t ∧ t < A.T ∧ A.U ≤ u ∧ u < A.maxU ∧ d < A.D)),
      if_neg (by omega : ¬(A.T ≤ t ∧ t < A.maxT ∧ 0 ≤ u ∧ u < A.maxU ∧ d < A.D))]
    exact hfill
  · rw [if_neg hip]
    exact hfill

/-- Padding cells after an in-place call: exactly zero over the `[maxT, maxU, D]` view. -/
theorem ComputeGradientsOneSequence_padding_inPlace (A : GradArgs) (g0 : ℕ → ℕ → ℕ → ℝ)
    (hip : A.inPlace = true) :
    ∀ t u d, t < A.maxT → u < A.maxU → d < A.D → (A.T ≤ t ∨ A.U ≤ u) →
      ComputeGradientsOneSequence A g0 t u d = 0 := by
  intro t u d htM huM hdD hpad
  simp only [ComputeGradientsOneSequence]
  rw [if_pos hip]
  simp only [zeroRegion]
  rcases Nat.lt_or_ge t A.T with htT | htT
  · have huU : A.U ≤ u := by omega
    rw [if_pos (by omega : 0 ≤ t ∧ t < A.T ∧ A.U ≤ u ∧ u < A.maxU ∧ d < A.D)]
  · by_cases h2 : 0 ≤ t ∧ t < A.T ∧ A.U ≤ u ∧ u < A.maxU ∧ d < A.D
    · rw [if_pos h2]
    · rw [if_neg h2,
        if_pos (by omega : A.T ≤ t ∧ t < A.maxT ∧ 0 ≤ u ∧ u < A.maxU ∧ d < A.D)]

/-- Padding cells after a call on separate buffers: untouched. -/
theorem ComputeGradientsOneSequence_padding_separate (A : GradArgs) (g0 : ℕ → ℕ → ℕ → ℝ)
    (hip : A.inPlace = false) :
    ∀ t u d, A.T ≤ t ∨ A.U ≤ u →
      ComputeGradientsOneSequence A g0 t u d = g0 t u d := by
  intro t u d hpad
  simp only [ComputeGradientsOneSequence]
  rw [if_neg (by rw [hip]; exact Bool.false_ne_true)]
  rw [gradTLoop_out A g0 0 t u d (by omega)]

/-- Follows the spec's words (§4.5 gradient table, as quoted by the claim): with
`c(t,u) = α(t,u) + cost − denom(t,u)`, `cost = −β(0,0)`, `g = x + c(t,u)` for
`x = logits(t,u,d)`, the four ordered cases of the table. Stated separately from the
code-derived `gradRaw` so the two can be compared. -/
noncomputable def specGradientTable (T U blank : ℕ) (targets : ℕ → ℕ)
    (logits : ℕ → ℕ → ℕ → ℝ) (alpha beta denom : ℕ → ℕ → ℝ) (t u d : ℕ) : ℝ :=
  let cost := -(beta 0 0)
  let g := logits t u d + alpha t u + cost - denom t u
  if d = blank ∧ t = T - 1 ∧ u = U - 1 then
    Real.exp (g + beta t u) - Real.exp g
  else if d = blank ∧ t < T - 1 then
    Real.exp (g + beta t u) - Real.exp (g + beta (t + 1) u)
  else if u < U - 1 ∧ d = targets u then
    Real.exp (g + beta t u) - Real.exp (g + beta t (u + 1))
  else Real.exp (g + beta t u)

/-- C3: with `fusedLogSmax` true (the only mode the CPU kernel implements) and
`clamp = 0`, for every in-range cell `(t < T, u < U)` and every `d < D`,
`ComputeGradientsOneSequence` writes `gradient(t,u,d)` equal to the four-case table of
spec §4.5 with `g = logits(t,u,d) + alpha(t,u) + cost − denom(t,u)`, `cost = −beta(0,0)`. -/
theorem C3_gradient_formula (A : GradArgs) (g0 : ℕ → ℕ → ℕ → ℝ)
    (hcoh : A.inPlace = true → g0 = A.logits) (hclamp : A.clamp = 0)
    (t u d : ℕ) (ht : t < A.T) (hu : u < A.U) (hd : d < A.D) :
    ComputeGradientsOneSequence A g0 t u d =
      specGradientTable A.T A.U A.blank A.targets A.logits A.alpha A.beta A.denom t u d := by
  rw [ComputeGradientsOneSequence_inRange A g0 hcoh t u d ht hu hd, clampApply,
    if_neg (by rw [hclamp]; exact lt_irrefl 0)]
  simp only [gradRaw, specGradientTable]
  rw [show A.logits t u d + (A.alpha t u + -(A.beta 0 0) - A.denom t u) =
    A.logits t u d + A.alpha t u + -(A.beta 0 0) - A.denom t u from by ring]

theorem C3_gradient_formula_witness :
    (0 : ℝ) = 0 ∧
      ComputeGradientsOneSequence
          ⟨1, 1, 1, 0, 0, 1, 1, fun _ => 0, fun _ _ _ => 0, fun _ _ => 0, fun _ _ => 0,
            fun _ _ => 0, false⟩ (fun _ _ _ => 0) 0 0 0 =
        specGradientTable 1 1 0 (fun _ => 0) (fun _ _ _ => 0) (fun _ _ => 0) (fun _ _ => 0)
          (fun _ _ => 0) 0 0 0 :=
  ⟨rfl,
    C3_gradient_formula
      ⟨1, 1, 1, 0, 0, 1, 1, fun _ => 0, fun _ _ _ => 0, fun _ _ => 0, fun _ _ => 0,
        fun _ _ => 0, false⟩ (fun _ _ _ => 0) (fun _ => rfl) rfl 0 0 0
      (by decide) (by decide) (by decide)⟩

/-- C8: after `ComputeGradientsOneSequence`, (i) if the gradient buffer aliases the
logits buffer, every padding cell of the `[maxT, maxU, D]` view (`t ≥ T` or `u ≥ U`) is
exactly zero; (ii) if the buffers do not alias, every padding cell retains its prior
contents; (iii) in both cases every in-range cell holds the (clamped) gradient-formula
value. -/
theorem C8_padding_zeroed_iff_inPlace (A : GradArgs) (g0 : ℕ → ℕ → ℕ → ℝ)
    (hcoh : A.inPlace = true → g0 = A.logits) :
    (A.inPlace = true →
      ∀ t u d, t < A.maxT → u < A.maxU → d < A.D → (A.T ≤ t ∨ A.U ≤ u) →
        ComputeGradientsOneSequence A g0 t u d = 0) ∧
    (A.inPlace = false →
      ∀ t u d, A.T ≤ t ∨ A.U ≤ u → ComputeGradientsOneSequence A g0 t u d = g0 t u d) ∧
    (∀ t u d, t < A.T → u < A.U → d < A.D →
      ComputeGradientsOneSequence A g0 t u d =
        clampApply A.clamp (gradRaw A (A.logits t u d) t u d)) :=
  ⟨fun hip t u d h1 h2 h3 h4 =>
      ComputeGradientsOneSequence_padding_inPlace A g0 hip t u d h1 h2 h3 h4,
    fun hip t u d h => ComputeGradientsOneSequence_padding_separate A g0 hip t u d h,
    fun t u d h1 h2 h3 => ComputeGradientsOneSequence_inRange A g0 hcoh t u d h1 h2 h3⟩

theorem C8_padding_zeroed_iff_inPlace_witness :
    ((1 : ℕ) < 2 ∧ (0 : ℕ) < 2 ∧ (0 : ℕ) < 1 ∧ (1 : ℕ) ≤ 1) ∧
      ComputeGradientsOneSequence
          ⟨1, 1, 1, 0, 0, 2, 2, fun _ => 0, fun _ _ _ => 3, fun _ _ => 0, fun _ _ => 0,
            fun _ _ => 0, true⟩ (fun _ _ _ => 3) 1 0 0 = 0 :=
  ⟨⟨by omega, by omega, by omega, le_rfl⟩,
    (C8_padding_zeroed_iff_inPlace
        ⟨1, 1, 1, 0, 0, 2, 2, fun _ => 0, fun _ _ _ => 3, fun _ _ => 0, fun _ _ => 0,
          fun _ _ => 0, true⟩ (fun _ _ _ => 3) (fun _ => rfl)).1 rfl 1 0 0
      (by decide) (by decide) (by decide) (Or.inl le_rfl)⟩

/-! ### The softmax-gradient sum (claim C4)

The sum over the vocabulary of one cell's gradients telescopes against the backward
recurrence. The cell-local lemma `sum_gradRaw_zero_cell` isolates exactly the invariants
used; it fails when `targets[u] = blank` at an interior cell, because the code's case
order lets the blank case capture the emit correction. -/

/-- Invariant I1 as a table: `denominator(t,u) = log Σ_d exp(logits(t,u,d))`. -/
noncomputable def denomOf (logits : ℕ → ℕ → ℕ → ℝ) (D : ℕ) : ℕ → ℕ → ℝ :=
  fun t u => Real.log (∑ d ∈ Finset.range D, Real.exp (logits t u d))

/-- Invariants I2/I3 as a table: `skip = logits(t,u,blank) − denom(t,u)`,
`emit = logits(t,u,targets[u]) − denom(t,u)`. -/
noncomputable def lpOf (logits : ℕ → ℕ → ℕ → ℝ) (targets : ℕ → ℕ) (blank D : ℕ) :
    ℕ → ℕ → LogProbPair :=
  fun t u =>
    ⟨logits t u blank - denomOf logits D t u, logits t u (targets u) - denomOf logits D t u⟩

theorem exp_cancel2 (dn C x : ℝ) :
    Real.exp dn * Real.exp (C + (x - dn)) = Real.exp (x + C) := by
  rw [← Real.exp_add]; congr 1; ring

theorem exp_cancel3 (dn C b x : ℝ) :
    Real.exp dn * Real.exp (C + (b + (x - dn))) = Real.exp (x + C + b) := by
  rw [← Real.exp_add]; congr 1; ring

theorem sum_indicator (D k : ℕ) (hk : k < D) (f : ℕ → ℝ) :
    ∑ d ∈ Finset.range D, (if d = k then f d else 0) = f k := by
  rw [Finset.sum_ite_eq' (Finset.range D) k f, if_pos (Finset.mem_range.mpr hk)]

/-- Cell-local sum-to-zero: if the denominator exponentiates to the vocabulary sum and
`beta` satisfies the backward recurrence around `(t,u)` (through the I2/I3 log-probs),
and — at interior cells — `targets[u] ≠ blank`, then the raw gradients of cell `(t,u)`
sum to zero over `d < D`. -/
theorem sum_gradRaw_zero_cell (A : GradArgs) (t u : ℕ)
    (hblank : A.blank < A.D) (ht : t < A.T) (hu : u < A.U)
    (htgtD : u < A.U - 1 → A.targets u < A.D)
    (htgtb : t < A.T - 1 → u < A.U - 1 → A.targets u ≠ A.blank)
    (hdenom : Real.exp (A.denom t u) = ∑ d ∈ Finset.range A.D, Real.exp (A.logits t u d))
    (hcorner : t = A.T - 1 → u = A.U - 1 →
      A.beta t u = A.logits t u A.blank - A.denom t u)
    (hcol : t < A.T - 1 → u = A.U - 1 →
      A.beta t u = A.beta (t + 1) u + (A.logits t u A.blank - A.denom t u))
    (hrow : t = A.T - 1 → u < A.U - 1 →
      A.beta t u = A.beta t (u + 1) + (A.logits t u (A.targets u) - A.denom t u))
    (hint : t < A.T - 1 → u < A.U - 1 →
      A.beta t u = lse (A.beta (t + 1) u + (A.logits t u A.blank - A.denom t u))
        (A.beta t (u + 1) + (A.logits t u (A.targets u) - A.denom t u))) :
    ∑ d ∈ Finset.range A.D, gradRaw A (A.logits t u d) t u d = 0 := by
  have hsplit : ∀ d, gradRaw A (A.logits t u d) t u d =
      Real.exp (A.logits t u d + (A.alpha t u + -(A.beta 0 0) - A.denom t u) + A.beta t u) -
        ((if d = A.blank ∧ t = A.T - 1 ∧ u = A.U - 1 then
            Real.exp (A.logits t u d + (A.alpha t u + -(A.beta 0 0) - A.denom t u)) else 0) +
          (if d = A.blank ∧ t < A.T - 1 then
            Real.exp (A.logits t u d + (A.alpha t u + -(A.beta 0 0) - A.denom t u) +
              A.beta (t + 1) u) else 0) +
          (if (u < A.U - 1 ∧ d = A.targets u) ∧ ¬(d = A.blank ∧ t = A.T - 1 ∧ u = A.U - 1) ∧
              ¬(d = A.blank ∧ t < A.T - 1) then
            Real.exp (A.logits t u d + (A.alpha t u + -(A.beta 0 0) - A.denom t u) +
              A.beta t (u + 1)) else 0)) := by
    intro d
    simp only [gradRaw]
    split_ifs with h1 h2 h3 h4 h5 h6 <;> first | ring1 | omega
  rw [Finset.sum_congr rfl (fun d _ => hsplit d), Finset.sum_sub_distrib,
    Finset.sum_add_distrib, Finset.sum_add_distrib]
  have hmain : ∑ d ∈ Finset.range A.D,
      Real.exp (A.logits t u d + (A.alpha t u + -(A.beta 0 0) - A.denom t u) + A.beta t u) =
        Real.exp (A.denom t u) *
          Real.exp ((A.alpha t u + -(A.beta 0 0) - A.denom t u) + A.beta t u) := by
    rw [hdenom, Finset.sum_mul]
    refine Finset.sum_congr rfl ?_
    intro d _
    rw [← Real.exp_add]
    congr 1
    ring
  rw [hmain]
  rcases (show t = A.T - 1 ∨ t < A.T - 1 from by omega) with hT1 | hT1 <;>
    rcases (show u = A.U - 1 ∨ u < A.U - 1 from by omega) with hU1 | hU1
  · -- corner: t = T-1, u = U-1
    have hI1 : ∑ d ∈ Finset.range A.D,
        (if d = A.blank ∧ t = A.T - 1 ∧ u = A.U - 1 then
          Real.exp (A.logits t u d + (A.alpha t u + -(A.beta 0 0) - A.denom t u)) else 0) =
          Real.exp (A.logits t u A.blank + (A.alpha t u + -(A.beta 0 0) - A.denom t u)) := by
      have hc : ∀ d ∈ Finset.range A.D,
          (if d = A.blank ∧ t = A.T - 1 ∧ u = A.U - 1 then
            Real.exp (A.logits t u d + (A.alpha t u + -(A.beta 0 0) - A.denom t u)) else 0) =
          (if d = A.blank then
            Real.exp (A.logits t u d + (A.alpha t u + -(A.beta 0 0) - A.denom t u)) else 0) := by
        intro d _
        rcases Decidable.em (d = A.blank) with hd | hd
        · rw [if_pos ⟨hd, hT1, hU1⟩, if_pos hd]
        · rw [if_neg (fun hc => hd hc.1), if_neg hd]
      rw [Finset.sum_congr rfl hc]
      exact sum_indicator A.D A.blank hblank _
    have hI2 : ∑ d ∈ Finset.range A.D,
        (if d = A.blank ∧ t < A.T - 1 then
          Real.exp (A.logits t u d + (A.alpha t u + -(A.beta 0 0) - A.denom t u) +
            A.beta (t + 1) u) else 0) = 0 :=
      Finset.sum_eq_zero fun d _ => if_neg (by omega)
    have hI3 : ∑ d ∈ Finset.range A.D,
        (if (u < A.U - 1 ∧ d = A.targets u) ∧ ¬(d = A.blank ∧ t = A.T - 1 ∧ u = A.U - 1) ∧
            ¬(d = A.blank ∧ t < A.T - 1) then
          Real.exp (A.logits t u d + (A.alpha t u + -(A.beta 0 0) - A.denom t u) +
            A.beta t (u + 1)) else 0) = 0 :=
      Finset.sum_eq_zero fun d _ => if_neg (by omega)
    rw [hI1, hI2, hI3, add_zero, add_zero, hcorner hT1 hU1, exp_cancel2, sub_self]
  · -- last row: t = T-1, u < U-1
    have hI1 : ∑ d ∈ Finset.range A.D,
        (if d = A.blank ∧ t = A.T - 1 ∧ u = A.U - 1 then
          Real.exp (A.logits t u d + (A.alpha t u + -(A.beta 0 0) - A.denom t u)) else 0) = 0 :=
      Finset.sum_eq_zero fun d _ => if_neg (by omega)
    have hI2 : ∑ d ∈ Finset.range A.D,
        (if d = A.blank ∧ t < A.T - 1 then
          Real.exp (A.logits t u d + (A.alpha t u + -(A.beta 0 0) - A.denom t u) +
            A.beta (t + 1) u) else 0) = 0 :=
      Finset.sum_eq_zero fun d _ => if_neg (by omega)
    have hI3 : ∑ d ∈ Finset.range A.D,
        (if (u < A.U - 1 ∧ d = A.targets u) ∧ ¬(d = A.blank ∧ t = A.T - 1 ∧ u = A.U - 1) ∧
            ¬(d = A.blank ∧ t < A.T - 1) then
          Real.exp (A.logits t u d + (A.alpha t u + -(A.beta 0 0) - A.denom t u) +
            A.beta t (u + 1)) else 0) =
          Real.exp (A.logits t u (A.targets u) +
            (A.alpha t u + -(A.beta 0 0) - A.denom t u) + A.beta t (u + 1)) := by
      have hc : ∀ d ∈ Finset.range A.D,
          (if (u < A.U - 1 ∧ d = A.targets u) ∧ ¬(d = A.blank ∧ t = A.T - 1 ∧ u = A.U - 1) ∧
              ¬(d = A.blank ∧ t < A.T - 1) then
            Real.exp (A.logits t u d + (A.alpha t u + -(A.beta 0 0) - A.denom t u) +
              A.beta t (u + 1)) else 0) =
          (if d = A.targets u then
            Real.exp (A.logits t u d + (A.alpha t u + -(A.beta 0 0) - A.denom t u) +
              A.beta t (u + 1)) else 0) := by
        intro d _
        rcases Decidable.em (d = A.targets u) with hd | hd
        · rw [if_pos ⟨⟨hU1, hd⟩, by omega, by omega⟩, if_pos hd]
        · rw [if_neg (fun hc => hd hc.1.2), if_neg hd]
      rw [Finset.sum_congr rfl hc]
      rw [sum_indicator A.D (A.targets u) (htgtD hU1) _]
    rw [hI1, hI2, hI3, zero_add, zero_add, hrow hT1 hU1, exp_cancel3, sub_self]
  · -- last column: t < T-1, u = U-1
    have hI1 : ∑ d ∈ Finset.range A.D,
        (if d = A.blank ∧ t = A.T - 1 ∧ u = A.U - 1 then
          Real.exp (A.logits t u d + (A.alpha t u + -(A.beta 0 0) - A.denom t u)) else 0) = 0 :=
      Finset.sum_eq_zero fun d _ => if_neg (by omega)
    have hI2 : ∑ d ∈ Finset.range A.D,
        (if d = A.blank ∧ t < A.T - 1 then
          Real.exp (A.logits t u d + (A.alpha t u + -(A.beta 0 0) - A.denom t u) +
            A.beta (t + 1) u) else 0) =
          Real.exp (A.logits t u A.blank + (A.alpha t u + -(A.beta 0 0) - A.denom t u) +
            A.beta (t + 1) u) := by
      have hc : ∀ d ∈ Finset.range A.D,
          (if d = A.blank ∧ t < A.T - 1 then
            Real.exp (A.logits t u d + (A.alpha t u + -(A.beta 0 0) - A.denom t u) +
              A.beta (t + 1) u) else 0) =
          (if d = A.blank then
            Real.exp (A.logits t u d + (A.alpha t u + -(A.beta 0 0) - A.denom t u) +
              A.beta (t + 1) u) else 0) := by
        intro d _
        rcases Decidable.em (d = A.blank) with hd | hd
        · rw [if_pos ⟨hd, hT1⟩, if_pos hd]
        · rw [if_neg (fun hc => hd hc.1), if_neg hd]
      rw [Finset.sum_congr rfl hc]
      exact sum_indicator A.D A.blank hblank _
    have hI3 : ∑ d ∈ Finset.range A.D,
        (if (u < A.U - 1 ∧ d = A.targets u) ∧ ¬(d = A.blank ∧ t = A.T - 1 ∧ u = A.U - 1) ∧
            ¬(d = A.blank ∧ t < A.T - 1) then
          Real.exp (A.logits t u d + (A.alpha t u + -(A.beta 0 0) - A.denom t u) +
            A.beta t (u + 1)) else 0) = 0 :=
      Finset.sum_eq_zero fun d _ => if_neg (by omega)
    rw [hI1, hI2, hI3, zero_add, add_zero, hcol hT1 hU1, exp_cancel3, sub_self]
  · -- interior: t < T-1, u < U-1
    have hI1 : ∑ d ∈ Finset.range A.D,
        (if d = A.blank ∧ t = A.T - 1 ∧ u = A.U - 1 then
          Real.exp (A.logits t u d + (A.alpha t u + -(A.beta 0 0) - A.denom t u)) else 0) = 0 :=
      Finset.sum_eq_zero fun d _ => if_neg (by omega)
    have hI2 : ∑ d ∈ Finset.range A.D,
        (if d = A.blank ∧ t < A.T - 1 then
          Real.exp (A.logits t u d + (A.alpha t u + -(A.beta 0 0) - A.denom t u) +
            A.beta (t + 1) u) else 0) =
          Real.exp (A.logits t u A.blank + (A.alpha t u + -(A.beta 0 0) - A.denom t u) +
            A.beta (t + 1) u) := by
      have hc : ∀ d ∈ Finset.range A.D,
          (if d = A.blank ∧ t < A.T - 1 then
            Real.exp (A.logits t u d + (A.alpha t u + -(A.beta 0 0) - A.denom t u) +
              A.beta (t + 1) u) else 0) =
          (if d = A.blank then
            Real.exp (A.logits t u d + (A.alpha t u + -(A.beta 0 0) - A.denom t u) +
              A.beta (t + 1) u) else 0) := by
        intro d _
        rcases Decidable.em (d = A.blank) with hd | hd
        · rw [if_pos ⟨hd, hT1⟩, if_pos hd]
        · rw [if_neg (fun hc => hd hc.1), if_neg hd]
      rw [Finset.sum_congr rfl hc]
      exact sum_indicator A.D A.blank hblank _
    have hI3 : ∑ d ∈ Finset.range A.D,
        (if (u < A.U - 1 ∧ d = A.targets u) ∧ ¬(d = A.blank ∧ t = A.T - 1 ∧ u = A.U - 1) ∧
            ¬(d = A.blank ∧ t < A.T - 1) then
          Real.exp (A.logits t u d + (A.alpha t u + -(A.beta 0 0) - A.denom t u) +
            A.beta t (u + 1)) else 0) =
          Real.exp (A.logits t u (A.targets u) +
            (A.alpha t u + -(A.beta 0 0) - A.denom t u) + A.beta t (u + 1)) := by
      have hc : ∀ d ∈ Finset.range A.D,
          (if (u < A.U - 1 ∧ d = A.targets u) ∧ ¬(d = A.blank ∧ t = A.T - 1 ∧ u = A.U - 1) ∧
              ¬(d = A.blank ∧ t < A.T - 1) then
            Real.exp (A.logits t u d + (A.alpha t u + -(A.beta 0 0) - A.denom t u) +
              A.beta t (u + 1)) else 0) =
          (if d = A.targets u then
            Real.exp (A.logits t u d + (A.alpha t u + -(A.beta 0 0) - A.denom t u) +
              A.beta t (u + 1)) else 0) := by
        intro d _
        rcases Decidable.em (d = A.targets u) with hd | hd
        · rw [if_pos ⟨⟨hU1, hd⟩, by omega, fun hc => htgtb hT1 hU1 (by rw [← hd, hc.1])⟩,
            if_pos hd]
        · rw [if_neg (fun hc => hd hc.1.2), if_neg hd]
      rw [Finset.sum_congr rfl hc]
      rw [sum_indicator A.D (A.targets u) (htgtD hU1) _]
    rw [hI1, hI2, hI3, zero_add, hint hT1 hU1]
    have hexpand :
        Real.exp ((A.alpha t u + -(A.beta 0 0) - A.denom t u) +
            lse (A.beta (t + 1) u + (A.logits t u A.blank - A.denom t u))
              (A.beta t (u + 1) + (A.logits t u (A.targets u) - A.denom t u))) =
          Real.exp ((A.alpha t u + -(A.beta 0 0) - A.denom t u) +
              (A.beta (t + 1) u + (A.logits t u A.blank - A.denom t u))) +
            Real.exp ((A.alpha t u + -(A.beta 0 0) - A.denom t u) +
              (A.beta t (u + 1) + (A.logits t u (A.targets u) - A.denom t u))) := by
      simp only [Real.exp_add, exp_lse]
      ring
    rw [hexpand, mul_add, exp_cancel3, exp_cancel3, sub_self]

/-- C4 (amended): when `fusedLogSmax` is true (the CPU kernel's only mode), `clamp = 0`,
the denominator satisfies I1, `beta` satisfies I4 through the I2/I3 log-probs (exact
arithmetic), the preconditions `blank ∈ [0,D)` and `targets[v] ∈ [0,D)` hold, **and
additionally `targets[v] ≠ blank` for every `v < U-1`**, the gradients produced by
`ComputeGradientsOneSequence` satisfy `Σ_d gradient(t,u,d) = 0` for every in-range cell.
The extra condition is forced: when `targets[u] = blank` at an interior cell the blank
branch of the code captures the would-be emit correction and the sum is positive (see
the counterexample). -/
theorem C4_gradient_sum_zero (A : GradArgs) (g0 : ℕ → ℕ → ℕ → ℝ)
    (hcoh : A.inPlace = true → g0 = A.logits) (hclamp : A.clamp = 0)
    (hblank : A.blank < A.D)
    (htgtD : ∀ v, v < A.U - 1 → A.targets v < A.D)
    (htgtb : ∀ v, v < A.U - 1 → A.targets v ≠ A.blank)
    (hdenom : ∀ a b, a < A.T → b < A.U → A.denom a b = denomOf A.logits A.D a b)
    (hbeta : ∀ a b, a < A.T → b < A.U →
      A.beta a b = betaCell (lpOf A.logits A.targets A.blank A.D) A.T A.U a b)
    (t u : ℕ) (ht : t < A.T) (hu : u < A.U) :
    ∑ d ∈ Finset.range A.D, ComputeGradientsOneSequence A g0 t u d = 0 := by
  have hstep : ∀ d ∈ Finset.range A.D,
      ComputeGradientsOneSequence A g0 t u d = gradRaw A (A.logits t u d) t u d := by
    intro d hd
    rw [ComputeGradientsOneSequence_inRange A g0 hcoh t u d ht hu (Finset.mem_range.mp hd),
      clampApply, if_neg (by rw [hclamp]; exact lt_irrefl 0)]
  rw [Finset.sum_congr rfl hstep]
  have hdn : Real.exp (A.denom t u) = ∑ d ∈ Finset.range A.D, Real.exp (A.logits t u d) := by
    rw [hdenom t u ht hu]
    simp only [denomOf]
    exact Real.exp_log
      (Finset.sum_pos (fun d _ => Real.exp_pos _) (Finset.nonempty_range_iff.mpr (by omega)))
  have hskip : (lpOf A.logits A.targets A.blank A.D t u).skip =
      A.logits t u A.blank - A.denom t u := by
    simp only [lpOf]
    rw [hdenom t u ht hu]
  have hemit : (lpOf A.logits A.targets A.blank A.D t u).emit =
      A.logits t u (A.targets u) - A.denom t u := by
    simp only [lpOf]
    rw [hdenom t u ht hu]
  refine sum_gradRaw_zero_cell A t u hblank ht hu (htgtD u) (fun _ h => htgtb u h) hdn
    ?_ ?_ ?_ ?_
  · intro hT1 hU1
    rw [hbeta t u ht hu, betaCell, if_neg (by omega), if_neg (by omega), hskip]
  · intro hT1 hU1
    rw [hbeta t u ht hu, betaCell, if_pos (by omega), if_neg (by omega), hskip,
      ← hbeta (t + 1) u (by omega) hu]
  · intro hT1 hU1
    rw [hbeta t u ht hu, betaCell, if_neg (by omega), if_pos (by omega), hemit,
      ← hbeta t (u + 1) ht (by omega)]
  · intro hT1 hU1
    rw [hbeta t u ht hu, betaCell, if_pos (by omega), if_pos (by omega), hskip, hemit,
      ← hbeta (t + 1) u (by omega) hu, ← hbeta t (u + 1) ht (by omega)]

theorem C4_gradient_sum_zero_witness :
    (0 : ℕ) < 1 ∧
      ∑ d ∈ Finset.range 1,
        ComputeGradientsOneSequence
          ⟨1, 1, 1, 0, 0, 1, 1, fun _ => 0, fun _ _ _ => 0, denomOf (fun _ _ _ => 0) 1,
            fun _ _ => 0, betaCell (lpOf (fun _ _ _ => 0) (fun _ => 0) 0 1) 1 1, false⟩
          (fun _ _ _ => 0) 0 0 d = 0 :=
  ⟨Nat.zero_lt_one,
    C4_gradient_sum_zero
      ⟨1, 1, 1, 0, 0, 1, 1, fun _ => 0, fun _ _ _ => 0, denomOf (fun _ _ _ => 0) 1,
        fun _ _ => 0, betaCell (lpOf (fun _ _ _ => 0) (fun _ => 0) 0 1) 1 1, false⟩
      (fun _ _ _ => 0) (fun h => absurd h (by decide)) rfl (by decide)
      (fun v hv => absurd hv (Nat.not_lt_zero v)) (fun v hv => absurd hv (Nat.not_lt_zero v))
      (fun a b _ _ => rfl) (fun a b _ _ => rfl) 0 0 (by decide) (by decide)⟩

/-- C4 (counterexample to the claim as stated): `T = U = 2`, `D = 1`, `blank = 0`,
`targets = [0]` (so `targets[0] = blank`, which I1-I5 allow), all logits `0`, and
`denominator`, `alpha`, `beta` computed exactly per I1-I5. At the in-range interior cell
`(0,0)` the gradients sum to `1/2`, not `0`. -/
theorem C4_sum_counterexample :
    ∑ d ∈ Finset.range 1,
        ComputeGradientsOneSequence
          ⟨2, 2, 1, 0, 0, 2, 2, fun _ => 0, fun _ _ _ => 0, denomOf (fun _ _ _ => 0) 1,
            alphaCell (lpOf (fun _ _ _ => 0) (fun _ => 0) 0 1),
            betaCell (lpOf (fun _ _ _ => 0) (fun _ => 0) 0 1) 2 2, false⟩
          (fun _ _ _ => 0) 0 0 d = 2⁻¹ ∧ (2⁻¹ : ℝ) ≠ 0 := by
  constructor
  · rw [Finset.sum_range_one]
    rw [ComputeGradientsOneSequence_inRange _ _ (fun h => absurd h (by decide)) 0 0 0
      (by decide) (by decide) (by decide)]
    set lp0 := lpOf (fun _ _ _ => (0 : ℝ)) (fun _ => 0) 0 1 with hlp0
    have hskip : ∀ a b, (lp0 a b).skip = 0 := by
      intro a b; simp [hlp0, lpOf, denomOf]
    have hemit : ∀ a b, (lp0 a b).emit = 0 := by
      intro a b; simp [hlp0, lpOf, denomOf]
    have hβ11 : betaCell lp0 2 2 1 1 = 0 := by
      rw [betaCell, if_neg (by omega), if_neg (by omega)]
      exact hskip 1 1
    have hβ10 : betaCell lp0 2 2 1 0 = 0 := by
      rw [betaCell, if_neg (by omega), if_pos (by omega)]
      show betaCell lp0 2 2 1 1 + (lp0 1 0).emit = 0
      rw [hβ11, hemit 1 0, add_zero]
    have hβ01 : betaCell lp0 2 2 0 1 = 0 := by
      rw [betaCell, if_pos (by omega), if_neg (by omega)]
      show betaCell lp0 2 2 1 1 + (lp0 0 1).skip = 0
      rw [hβ11, hskip 0 1, add_zero]
    have hβ00 : betaCell lp0 2 2 0 0 = Real.log 2 := by
      rw [betaCell, if_pos (by omega), if_pos (by omega)]
      show lse (betaCell lp0 2 2 1 0 + (lp0 0 0).skip)
          (betaCell lp0 2 2 0 1 + (lp0 0 0).emit) = Real.log 2
      rw [hβ10, hβ01, hskip 0 0, hemit 0 0, add_zero, lse]
      norm_num
    have hα00 : alphaCell lp0 0 0 = 0 := by simp [alphaCell]
    have hdn : denomOf (fun _ _ _ => (0 : ℝ)) 1 0 0 = 0 := by simp [denomOf]
    rw [clampApply, if_neg (show ¬((0 : ℝ) < 0) from lt_irrefl 0), gradRaw]
    show (if (0 = 0 ∧ 0 = 2 - 1 ∧ 0 = 2 - 1) then _ else _) = (2⁻¹ : ℝ)
    rw [if_neg (by omega), if_pos (by omega : (0 = 0 ∧ 0 < 2 - 1))]
    show Real.exp ((0 : ℝ) + (alphaCell lp0 0 0 + -(betaCell lp0 2 2 0 0) -
          denomOf (fun _ _ _ => (0 : ℝ)) 1 0 0) + betaCell lp0 2 2 0 0) -
        Real.exp ((0 : ℝ) + (alphaCell lp0 0 0 + -(betaCell lp0 2 2 0 0) -
          denomOf (fun _ _ _ => (0 : ℝ)) 1 0 0) + betaCell lp0 2 2 (0 + 1) 0) = 2⁻¹
    rw [show (0 : ℕ) + 1 = 1 from rfl, hβ00, hβ10, hα00, hdn]
    rw [show (0 : ℝ) + (0 + -Real.log 2 - 0) + Real.log 2 = 0 from by ring,
      show (0 : ℝ) + (0 + -Real.log 2 - 0) + 0 = -Real.log 2 from by ring,
      Real.exp_zero, Real.exp_neg, Real.exp_log two_pos]
    norm_num
  · norm_num

/-! ### The log-probs stage (claim C6) -/

/-- `ComputeLogProbsOneSequence` (`cpu_kernels.h` lines 88-111): for every `t < T`,
`u < U` writes `skip = logits(t,u,blank) − denom(t,u)` and, when `u < U-1`,
`emit = logits(t,u,targets[u]) − denom(t,u)`. Each cell is written once from inputs
only, so the fill is embedded as the resulting table over the prior contents `g0`.
The function does not receive or consult `Options.fusedLogSmax_`. -/
noncomputable def ComputeLogProbsOneSequence (blank : ℕ) (logits : ℕ → ℕ → ℕ → ℝ)
    (targets : ℕ → ℕ) (T U : ℕ) (denom : ℕ → ℕ → ℝ) (g0 : ℕ → ℕ → LogProbPair) :
    ℕ → ℕ → LogProbPair :=
  fun t u =>
    if t < T ∧ u < U then
      { skip := logits t u blank - denom t u,
        emit := if u < U - 1 then logits t u (targets u) - denom t u else (g0 t u).emit }
    else g0 t u

/-- Modelled from the spec: the GPU `ComputeLogProbs` kernel (`gpu_kernels.cuh`, not under
`src/`), which the `Compute` dispatcher of `gpu_transducer.h` (lines 121-144) launches
with the `fusedLogSmax` flag: "When disabled the denominator is effectively treated as
zero so that `skip = logits(t,u,blank)` and `emit = logits(t,u,targets[u])`". -/
noncomputable def gpuComputeLogProbs (fusedLogSmax : Bool) (blank : ℕ)
    (logits : ℕ → ℕ → ℕ → ℝ) (targets : ℕ → ℕ) (T U : ℕ) (denom : ℕ → ℕ → ℝ)
    (g0 : ℕ → ℕ → LogProbPair) : ℕ → ℕ → LogProbPair :=
  fun t u =>
    if t < T ∧ u < U then
      { skip :=
          if fusedLogSmax then logits t u blank - denom t u else logits t u blank,
        emit :=
          if u < U - 1 then
            if fusedLogSmax then logits t u (targets u) - denom t u
            else logits t u (targets u)
          else (g0 t u).emit }
    else g0 t u

/-- C6 (counterexample to the claim as stated): the CPU log-probs stage, cited by the
claim, subtracts the denominator no matter what `Options.fusedLogSmax_` is (it never
reads the flag): with all logits `0` and `denom ≡ 1`, the written `skip` is `-1`, not
`logits(0,0,blank) = 0`. -/
theorem C6_cpu_counterexample :
    (ComputeLogProbsOneSequence 0 (fun _ _ _ => 0) (fun _ => 0) 1 1 (fun _ _ => 1)
        (fun _ _ => ⟨0, 0⟩) 0 0).skip = -1 ∧ (-1 : ℝ) ≠ 0 := by
  constructor
  · simp only [ComputeLogProbsOneSequence,
      if_pos (show (0 : ℕ) < 1 ∧ (0 : ℕ) < 1 from ⟨Nat.zero_lt_one, Nat.zero_lt_one⟩)]
    norm_num
  · norm_num

/-- C6 (amended): the CPU log-probs stage ignores `fusedLogSmax_` and always writes
`skip = logits(t,u,blank) − denom(t,u)` (and `emit = logits(t,u,targets[u]) − denom(t,u)`
for `u < U-1`); the behavior the claim describes — the denominator treated as zero when
`fusedLogSmax_` is false — holds of the GPU log-probs kernel modelled from the spec. -/
theorem C6_logprobs_fused_off (blank : ℕ) (logits : ℕ → ℕ → ℕ → ℝ) (targets : ℕ → ℕ)
    (T U : ℕ) (denom : ℕ → ℕ → ℝ) (g0 g1 : ℕ → ℕ → LogProbPair) (t u : ℕ)
    (ht : t < T) (hu : u < U) :
    ((ComputeLogProbsOneSequence blank logits targets T U denom g0 t u).skip =
        logits t u blank - denom t u ∧
      (u < U - 1 →
        (ComputeLogProbsOneSequence blank logits targets T U denom g0 t u).emit =
          logits t u (targets u) - denom t u)) ∧
    ((gpuComputeLogProbs false blank logits targets T U denom g1 t u).skip =
        logits t u blank ∧
      (u < U - 1 →
        (gpuComputeLogProbs false blank logits targets T U denom g1 t u).emit =
          logits t u (targets u))) := by
  refine ⟨⟨?_, fun h1 => ?_⟩, ?_, fun h1 => ?_⟩
  · simp only [ComputeLogProbsOneSequence, if_pos (And.intro ht hu)]
  · simp only [ComputeLogProbsOneSequence, if_pos (And.intro ht hu)]
    rw [if_pos h1]
  · simp only [gpuComputeLogProbs, if_pos (And.intro ht hu)]
    rw [if_neg (by decide : ¬(false = true))]
  · simp only [gpuComputeLogProbs, if_pos (And.intro ht hu)]
    rw [if_pos h1, if_neg (by decide : ¬(false = true))]

theorem C6_logprobs_fused_off_witness :
    ((0 : ℕ) < 2 ∧ (0 : ℕ) < 2) ∧
      ((ComputeLogProbsOneSequence 0 (fun _ _ _ => 5) (fun _ => 0) 2 2 (fun _ _ => 1)
            (fun _ _ => ⟨0, 0⟩) 0 0).skip = 5 - 1 ∧
        (gpuComputeLogProbs false 0 (fun _ _ _ => 5) (fun _ => 0) 2 2 (fun _ _ => 1)
            (fun _ _ => ⟨0, 0⟩) 0 0).skip = 5) :=
  ⟨⟨by omega, by omega⟩,
    (C6_logprobs_fused_off 0 (fun _ _ _ => 5) (fun _ => 0) 2 2 (fun _ _ => 1)
        (fun _ _ => ⟨0, 0⟩) (fun _ _ => ⟨0, 0⟩) 0 0 (by omega) (by omega)).1.1,
    ((C6_logprobs_fused_off 0 (fun _ _ _ => 5) (fun _ => 0) 2 2 (fun _ _ => 1)
        (fun _ _ => ⟨0, 0⟩) (fun _ _ => ⟨0, 0⟩) 0 0 (by omega) (by omega)).2).1⟩

/-! ### The GPU dispatchers (claim C9) -/

/-- The four pipeline stages of the dispatchers. -/
inductive Stage where
  | denominator
  | logProbs
  | alphasBetas
  | gradient
deriving DecidableEq

/-- GPU `LogSumExp2D` (`gpu_transducer.h` lines 31-71): launch `ReduceMax2D`; if
`cudaGetLastError()` reports failure (`okMax = false`) return the max-reduction failure
code without launching the second kernel; launch `ReduceLogSumExpGivenMax2D`; on failure
(`okSum = false`) return the sum-reduction failure code; else `SUCCESS`. -/
def gpuLogSumExp2D (okMax okSum : Bool) : status_t :=
  if okMax = false then status_t.COMPUTE_DENOMINATOR_REDUCE_MAX_FAILED
  else if okSum = false then status_t.COMPUTE_DENOMINATOR_REDUCE_SUM_FAILED
  else status_t.SUCCESS

/-- The dense `Compute` dispatcher (`gpu_transducer.h` lines 84-221): stages run in the
order denominator, log-probs, alphas/betas, gradient; each `cudaGetLastError` check
(`ok…` flag) failing makes the routine return the corresponding status before any later
stage; the gradient stage runs only when `gradients != nullptr` (`gradientsPtr`). The
second component lists the stages launched. -/
def Compute (okMax okSum okLogProbs okAlphasBetas okGradients gradientsPtr : Bool) :
    status_t × List Stage :=
  let s := gpuLogSumExp2D okMax okSum
  if s ≠ status_t.SUCCESS then (s, [Stage.denominator])
  else if okLogProbs = false then
    (status_t.COMPUTE_LOG_PROBS_FAILED, [Stage.denominator, Stage.logProbs])
  else if okAlphasBetas = false then
    (status_t.COMPUTE_ALPHAS_BETAS_COSTS_FAILED,
      [Stage.denominator, Stage.logProbs, Stage.alphasBetas])
  else if gradientsPtr then
    if okGradients = false then
      (status_t.COMPUTE_GRADIENTS_FAILED,
        [Stage.denominator, Stage.logProbs, Stage.alphasBetas, Stage.gradient])
    else
      (status_t.SUCCESS, [Stage.denominator, Stage.logProbs, Stage.alphasBetas, Stage.gradient])
  else (status_t.SUCCESS, [Stage.denominator, Stage.logProbs, Stage.alphasBetas])

/-- How a `ComputeSparse` call ends: a returned status, or process termination through
`gpuErrchk`'s `exit(code)`. -/
inductive ComputeOutcome where
  | returned (s : status_t)
  | aborted
deriving DecidableEq

/-- The `ComputeSparse` dispatcher (`gpu_transducer.h` lines 233-369): the denominator
stage's status is checked and returned (`LogSumExp2D` itself consumed any launch error,
so the following `gpuErrchk` sees success); every later stage checks its launch only
through `gpuErrchk(cudaGetLastError())`, which prints and calls `exit(code)` on failure —
modelled as `aborted` — and never returns a failure status. -/
def ComputeSparse (okMax okSum okLogProbs okAlphasBetas okGradients gradientsPtr : Bool) :
    ComputeOutcome × List Stage :=
  let s := gpuLogSumExp2D okMax okSum
  if s ≠ status_t.SUCCESS then (ComputeOutcome.returned s, [Stage.denominator])
  else if okLogProbs = false then
    (ComputeOutcome.aborted, [Stage.denominator, Stage.logProbs])
  else if okAlphasBetas = false then
    (ComputeOutcome.aborted, [Stage.denominator, Stage.logProbs, Stage.alphasBetas])
  else if gradientsPtr then
    if okGradients = false then
      (ComputeOutcome.aborted,
        [Stage.denominator, Stage.logProbs, Stage.alphasBetas, Stage.gradient])
    else
      (ComputeOutcome.returned status_t.SUCCESS,
        [Stage.denominator, Stage.logProbs, Stage.alphasBetas, Stage.gradient])
  else
    (ComputeOutcome.returned status_t.SUCCESS,
      [Stage.denominator, Stage.logProbs, Stage.alphasBetas])

/-- C9 (counterexample to the claim as stated): in `ComputeSparse`, a failing log-probs
stage does not make the routine return `COMPUTE_LOG_PROBS_FAILED`; `gpuErrchk` aborts the
process instead (later stages are indeed not executed). -/
theorem C9_sparse_counterexample :
    ComputeSparse true true false true true true =
        (ComputeOutcome.aborted, [Stage.denominator, Stage.logProbs]) ∧
      ComputeOutcome.aborted ≠ ComputeOutcome.returned status_t.COMPUTE_LOG_PROBS_FAILED :=
  ⟨rfl, by decide⟩

/-- C9 (amended): `Compute` executes the stages in order denominator, log-probs,
alpha/beta, gradient and returns the first failing stage's status without executing any
later stage; with a null gradients pointer the gradient stage is skipped and (earlier
stages succeeding) `SUCCESS` is returned. `ComputeSparse` short-circuits by *returning*
a status only for the denominator stage; a failure in a later stage aborts the process
via `gpuErrchk`/`exit` (still without executing later stages), and with a null gradients
pointer it skips the gradient stage and returns `SUCCESS`. -/
theorem C9_dispatch_behavior (x e3 e4 g : Bool) :
    (Compute false x e3 e4 g true =
        (status_t.COMPUTE_DENOMINATOR_REDUCE_MAX_FAILED, [Stage.denominator]) ∧
      ComputeSparse false x e3 e4 g true =
        (ComputeOutcome.returned status_t.COMPUTE_DENOMINATOR_REDUCE_MAX_FAILED,
          [Stage.denominator])) ∧
    (Compute true false x e4 g true =
        (status_t.COMPUTE_DENOMINATOR_REDUCE_SUM_FAILED, [Stage.denominator]) ∧
      ComputeSparse true false x e4 g true =
        (ComputeOutcome.returned status_t.COMPUTE_DENOMINATOR_REDUCE_SUM_FAILED,
          [Stage.denominator])) ∧
    (Compute true true false e4 g true =
        (status_t.COMPUTE_LOG_PROBS_FAILED, [Stage.denominator, Stage.logProbs]) ∧
      ComputeSparse true true false e4 g true =
        (ComputeOutcome.aborted, [Stage.denominator, Stage.logProbs])) ∧
    (Compute true true true false g true =
        (status_t.COMPUTE_ALPHAS_BETAS_COSTS_FAILED,
          [Stage.denominator, Stage.logProbs, Stage.alphasBetas]) ∧
      ComputeSparse true true true false g true =
        (ComputeOutcome.aborted, [Stage.denominator, Stage.logProbs, Stage.alphasBetas])) ∧
    (Compute true true true true false true =
        (status_t.COMPUTE_GRADIENTS_FAILED,
          [Stage.denominator, Stage.logProbs, Stage.alphasBetas, Stage.gradient]) ∧
      ComputeSparse true true true true false true =
        (ComputeOutcome.aborted,
          [Stage.denominator, Stage.logProbs, Stage.alphasBetas, Stage.gradient])) ∧
    (Compute true true true true true true =
        (status_t.SUCCESS,
          [Stage.denominator, Stage.logProbs, Stage.alphasBetas, Stage.gradient]) ∧
      ComputeSparse true true true true true true =
        (ComputeOutcome.returned status_t.SUCCESS,
          [Stage.denominator, Stage.logProbs, Stage.alphasBetas, Stage.gradient])) ∧
    (Compute true true true true x false =
        (status_t.SUCCESS, [Stage.denominator, Stage.logProbs, Stage.alphasBetas]) ∧
      ComputeSparse true true true true x false =
        (ComputeOutcome.returned status_t.SUCCESS,
          [Stage.denominator, Stage.logProbs, Stage.alphasBetas])) := by
  cases x <;> cases e3 <;> cases e4 <;> cases g <;> decide

/-! ### Restricted-mode recurrences (claim C7)

Restricted cells carry the `-INFINITY` sentinel, embedded as `⊥ : WithBot ℝ`
(`⊥ + x = ⊥`, matching IEEE `-inf + finite`). The `AlignmentRestrictionCheck`
predicates are not under `src/` and the claim quantifies over every predicate
assignment, so they are arbitrary functions. -/

/-- Modelled from the spec: the interface of `AlignmentRestrictionCheck`
(`alignment_restrictions.h`, not under `src/`): the four transition predicates and the
per-`u` inclusive time range. The claim quantifies over every predicate assignment, so
the fields are unconstrained. -/
structure RestrictionCheck where
  alphaBlankTransition : ℕ → ℕ → Bool
  alphaEmitTransition : ℕ → ℕ → Bool
  betaBlankTransition : ℕ → ℕ → Bool
  betaEmitTransition : ℕ → ℕ → Bool
  validTimeRanges : ℕ → ℕ × ℕ

/-- Modelled from the spec: `math::lse` including its `−∞` cases, `lse(−∞, x) = x`. -/
noncomputable def lseW (x y : WithBot ℝ) : WithBot ℝ :=
  WithBot.recBotCoe y
    (fun a => WithBot.recBotCoe ((a : ℝ) : WithBot ℝ)
      (fun b => ((lse a b : ℝ) : WithBot ℝ)) y) x

theorem lseW_bot_left (y : WithBot ℝ) : lseW ⊥ y = y := by simp [lseW]

theorem lseW_coe_bot (a : ℝ) : lseW (a : WithBot ℝ) ⊥ = (a : WithBot ℝ) := by simp [lseW]

theorem lseW_coe_coe (a b : ℝ) :
    lseW (a : WithBot ℝ) (b : WithBot ℝ) = ((lse a b : ℝ) : WithBot ℝ) := by simp [lseW]

theorem lseW_ne_bot (x y : WithBot ℝ) (h : x ≠ ⊥ ∨ y ≠ ⊥) : lseW x y ≠ ⊥ := by
  induction x using WithBot.recBotCoe with
  | bot =>
      rw [lseW_bot_left]
      rcases h with h | h
      · exact absurd rfl h
      · exact h
  | coe a =>
      induction y using WithBot.recBotCoe with
      | bot => rw [lseW_coe_bot]; exact WithBot.coe_ne_bot
      | coe b => rw [lseW_coe_coe]; exact WithBot.coe_ne_bot

/-- One store into a restricted-mode lattice view. -/
def updW (g : ℕ → ℕ → WithBot ℝ) (t u : ℕ) (v : WithBot ℝ) : ℕ → ℕ → WithBot ℝ :=
  fun a b => if a = t ∧ b = u then v else g a b

theorem updW_same (g : ℕ → ℕ → WithBot ℝ) (t u : ℕ) (v : WithBot ℝ) : updW g t u v t u = v := by
  simp [updW]

theorem updW_other (g : ℕ → ℕ → WithBot ℝ) (t u : ℕ) (v : WithBot ℝ) {a b : ℕ}
    (h : ¬(a = t ∧ b = u)) : updW g t u v a b = g a b := by
  simp only [updW, if_neg h]

theorem updW_ne_bot (g : ℕ → ℕ → WithBot ℝ) (t u : ℕ) (v : WithBot ℝ) (hv : v ≠ ⊥)
    {a b : ℕ} (h : g a b ≠ ⊥) : updW g t u v a b ≠ ⊥ := by
  by_cases hc : a = t ∧ b = u
  · rw [updW, if_pos hc]; exact hv
  · rw [updW_other _ _ _ _ hc]; exact h

/-- The `-INFINITY` initialization of the restricted fills (`for t < T, for u < U:
cell = -INFINITY`): constant stores with no reads, embedded as the resulting grid over
the prior contents `g0`. -/
def restrictInit (T U : ℕ) (g0 : ℕ → ℕ → WithBot ℝ) : ℕ → ℕ → WithBot ℝ :=
  fun t u => if t < T ∧ u < U then ⊥ else g0 t u

/-- Restricted `u = 0` boundary loop (`cpu_kernels.h` lines 213-218): stops at the first
rejected `alphaBlankTransition(t, 0)` (the `break`). -/
noncomputable def raColLoop (chk : RestrictionCheck) (lp : ℕ → ℕ → LogProbPair) (T : ℕ)
    (g : ℕ → ℕ → WithBot ℝ) (t : ℕ) : ℕ → ℕ → WithBot ℝ :=
  if t < T then
    if chk.alphaBlankTransition t 0 then
      raColLoop chk lp T
        (updW g t 0 (g (t - 1) 0 + (((lp (t - 1) 0).skip : ℝ) : WithBot ℝ))) (t + 1)
    else g
  else g
termination_by T - t
decreasing_by omega

/-- Restricted `t = 0` boundary loop (lines 220-225): stops at the first rejected
`alphaEmitTransition(0, u)`. -/
noncomputable def raRowLoop (chk : RestrictionCheck) (lp : ℕ → ℕ → LogProbPair) (U : ℕ)
    (g : ℕ → ℕ → WithBot ℝ) (u : ℕ) : ℕ → ℕ → WithBot ℝ :=
  if u < U then
    if chk.alphaEmitTransition 0 u then
      raRowLoop chk lp U
        (updW g 0 u (g 0 (u - 1) + (((lp 0 (u - 1)).emit : ℝ) : WithBot ℝ))) (u + 1)
    else g
  else g
termination_by U - u
decreasing_by omega

/-- Body of the restricted interior fill at `(t, u)` (lines 230-244): each accepted
transition contributes a term, rejected ones stay `-∞`, and the cell is written only if
one contribution is not `-∞`. -/
noncomputable def raCellStep (chk : RestrictionCheck) (lp : ℕ → ℕ → LogProbPair)
    (g : ℕ → ℕ → WithBot ℝ) (t u : ℕ) : ℕ → ℕ → WithBot ℝ :=
  let skip : WithBot ℝ :=
    if chk.alphaBlankTransition t u then g (t - 1) u + (((lp (t - 1) u).skip : ℝ) : WithBot ℝ)
    else ⊥
  let emit : WithBot ℝ :=
    if chk.alphaEmitTransition t u then g t (u - 1) + (((lp t (u - 1)).emit : ℝ) : WithBot ℝ)
    else ⊥
  if skip ≠ ⊥ ∨ emit ≠ ⊥ then updW g t u (lseW skip emit) else g

/-- Restricted interior inner loop: `for (t = start_t; t < end_t + 1; ++t)`. -/
noncomputable def raInnerLoop (chk : RestrictionCheck) (lp : ℕ → ℕ → LogProbPair)
    (u tEnd : ℕ) (g : ℕ → ℕ → WithBot ℝ) (t : ℕ) : ℕ → ℕ → WithBot ℝ :=
  if t < tEnd + 1 then raInnerLoop chk lp u tEnd (raCellStep chk lp g t u) (t + 1) else g
termination_by tEnd + 1 - t
decreasing_by omega

/-- Restricted interior outer loop: `for (u = 1; u < U; ++u)` with
`validTimeRanges(u) = (start_t, end_t)`. -/
noncomputable def raOuterLoop (chk : RestrictionCheck) (lp : ℕ → ℕ → LogProbPair) (U : ℕ)
    (g : ℕ → ℕ → WithBot ℝ) (u : ℕ) : ℕ → ℕ → WithBot ℝ :=
  if u < U then
    raOuterLoop chk lp U
      (raInnerLoop chk lp u (chk.validTimeRanges u).2 g (chk.validTimeRanges u).1) (u + 1)
  else g
termination_by U - u
decreasing_by omega

/-- `ComputeAlphaOneSequenceRestricted` (`cpu_kernels.h` lines 190-249): initialize to
`-∞`, set `alpha(0,0) = 0`, run both boundary loops and the interior fill, and return
the final grid with `forward_score = alpha(T-1,U-1) + logProbs(T-1,U-1).skip`. -/
noncomputable def ComputeAlphaOneSequenceRestricted (chk : RestrictionCheck)
    (lp : ℕ → ℕ → LogProbPair) (T U : ℕ) (g0 : ℕ → ℕ → WithBot ℝ) :
    (ℕ → ℕ → WithBot ℝ) × WithBot ℝ :=
  let g1 := updW (restrictInit T U g0) 0 0 (((0 : ℝ) : WithBot ℝ))
  let g2 := raColLoop chk lp T g1 1
  let g3 := raRowLoop chk lp U g2 1
  let g4 := raOuterLoop chk lp U g3 1
  (g4, g4 (T - 1) (U - 1) + (((lp (T - 1) (U - 1)).skip : ℝ) : WithBot ℝ))

/-- Restricted `u = U-1` boundary loop of the backward fill (lines 306-311), with the
`break` on the first rejected `betaBlankTransition(t, U-1)`; the counter argument `n`
makes the loop run `t = n-1, …, 0` (the call site passes `T-1`). -/
noncomputable def rbColLoop (chk : RestrictionCheck) (lp : ℕ → ℕ → LogProbPair) (U : ℕ)
    (g : ℕ → ℕ → WithBot ℝ) : ℕ → ℕ → ℕ → WithBot ℝ
  | 0 => g
  | n + 1 =>
      if chk.betaBlankTransition n (U - 1) then
        rbColLoop chk lp U
          (updW g n (U - 1) (g (n + 1) (U - 1) + (((lp n (U - 1)).skip : ℝ) : WithBot ℝ))) n
      else g

/-- Restricted `t = T-1` boundary loop of the backward fill (lines 313-318). -/
noncomputable def rbRowLoop (chk : RestrictionCheck) (lp : ℕ → ℕ → LogProbPair) (T : ℕ)
    (g : ℕ → ℕ → WithBot ℝ) : ℕ → ℕ → ℕ → WithBot ℝ
  | 0 => g
  | m + 1 =>
      if chk.betaEmitTransition (T - 1) m then
        rbRowLoop chk lp T
          (updW g (T - 1) m (g (T - 1) (m + 1) + (((lp (T - 1) m).emit : ℝ) : WithBot ℝ))) m
      else g

/-- Body of the restricted backward interior fill at `(t, u)` (lines 322-334). -/
noncomputable def rbCellStep (chk : RestrictionCheck) (lp : ℕ → ℕ → LogProbPair)
    (g : ℕ → ℕ → WithBot ℝ) (t u : ℕ) : ℕ → ℕ → WithBot ℝ :=
  let skip : WithBot ℝ :=
    if chk.betaBlankTransition t u then g (t + 1) u + (((lp t u).skip : ℝ) : WithBot ℝ)
    else ⊥
  let emit : WithBot ℝ :=
    if chk.betaEmitTransition t u then g t (u + 1) + (((lp t u).emit : ℝ) : WithBot ℝ)
    else ⊥
  if skip ≠ ⊥ ∨ emit ≠ ⊥ then updW g t u (lseW skip emit) else g

/-- Restricted backward inner loop: `for (t = end_t; t >= start_t; --t)`; the counter
`k` runs the cells `start + k - 1, …, start` (the call site passes `end + 1 - start`). -/
noncomputable def rbInnerLoop (chk : RestrictionCheck) (lp : ℕ → ℕ → LogProbPair)
    (u start : ℕ) (g : ℕ → ℕ → WithBot ℝ) : ℕ → ℕ → ℕ → WithBot ℝ
  | 0 => g
  | k + 1 => rbInnerLoop chk lp u start (rbCellStep chk lp g (start + k) u) k

/-- Restricted backward outer loop: `for (u = U-2; u >= 0; --u)` (counter `m`, call site
passes `U-1`). -/
noncomputable def rbOuterLoop (chk : RestrictionCheck) (lp : ℕ → ℕ → LogProbPair)
    (g : ℕ → ℕ → WithBot ℝ) : ℕ → ℕ → ℕ → WithBot ℝ
  | 0 => g
  | m + 1 =>
      rbOuterLoop chk lp
        (rbInnerLoop chk lp m (chk.validTimeRanges m).1 g
          ((chk.validTimeRanges m).2 + 1 - (chk.validTimeRanges m).1)) m

/-- `ComputeBetaOneSequenceRestricted` (`cpu_kernels.h` lines 284-340): initialize to
`-∞`, write `beta(T-1,U-1) = logProbs(T-1,U-1).skip` unconditionally, run the two
boundary loops and the interior fill, and return the grid with
`backward_score = beta(0,0)`. -/
noncomputable def ComputeBetaOneSequenceRestricted (chk : RestrictionCheck)
    (lp : ℕ → ℕ → LogProbPair) (T U : ℕ) (g0 : ℕ → ℕ → WithBot ℝ) :
    (ℕ → ℕ → WithBot ℝ) × WithBot ℝ :=
  let g1 := updW (restrictInit T U g0) (T - 1) (U - 1) (((lp (T - 1) (U - 1)).skip : ℝ) : WithBot ℝ)
  let g2 := rbColLoop chk lp U g1 (T - 1)
  let g3 := rbRowLoop chk lp T g2 (U - 1)
  let g4 := rbOuterLoop chk lp g3 (U - 1)
  (g4, g4 0 0)

/-- An accepted forward transition into `(t,u)` with a finite source. -/
def alphaSupported (chk : RestrictionCheck) (g : ℕ → ℕ → WithBot ℝ) (t u : ℕ) : Prop :=
  (chk.alphaBlankTransition t u = true ∧ g (t - 1) u ≠ ⊥) ∨
    (chk.alphaEmitTransition t u = true ∧ g t (u - 1) ≠ ⊥)

/-- Every finite in-range cell other than `alpha(0,0)` has an accepted finite incoming
transition. -/
def alphaGood (chk : RestrictionCheck) (T U : ℕ) (g : ℕ → ℕ → WithBot ℝ) : Prop :=
  ∀ t u, t < T → u < U → ¬(t = 0 ∧ u = 0) → g t u ≠ ⊥ → alphaSupported chk g t u

theorem alphaSupported_mono (chk : RestrictionCheck) (g g' : ℕ → ℕ → WithBot ℝ) (t u : ℕ)
    (hmono : ∀ a b, g a b ≠ ⊥ → g' a b ≠ ⊥) (h : alphaSupported chk g t u) :
    alphaSupported chk g' t u := by
  rcases h with ⟨h1, h2⟩ | ⟨h1, h2⟩
  · exact Or.inl ⟨h1, hmono _ _ h2⟩
  · exact Or.inr ⟨h1, hmono _ _ h2⟩

theorem alphaGood_upd (chk : RestrictionCheck) (T U : ℕ) (g : ℕ → ℕ → WithBot ℝ)
    (t u : ℕ) (v : WithBot ℝ) (hv : v ≠ ⊥) (hg : alphaGood chk T U g)
    (hcell : alphaSupported chk (updW g t u v) t u) : alphaGood chk T U (updW g t u v) := by
  intro a b ha hb hab hne
  by_cases hc : a = t ∧ b = u
  · obtain ⟨rfl, rfl⟩ := hc
    exact hcell
  · refine alphaSupported_mono chk g _ a b (fun x y hxy => updW_ne_bot g t u v hv hxy) ?_
    exact hg a b ha hb hab (by rwa [updW_other g t u v hc] at hne)

theorem raColLoop_out (chk : RestrictionCheck) (lp : ℕ → ℕ → LogProbPair) (T : ℕ) :
    ∀ g t a b, ¬(b = 0 ∧ t ≤ a) → raColLoop chk lp T g t a b = g a b := by
  intro g t
  induction g, t using raColLoop.induct chk lp T with
  | case1 g t ht hchk ih =>
      intro a b h
      rw [raColLoop, if_pos ht, if_pos hchk, ih a b (by omega),
        updW_other _ _ _ _ (by omega)]
  | case2 g t ht hchk =>
      intro a b h
      rw [raColLoop, if_pos ht, if_neg hchk]
  | case3 g t ht =>
      intro a b h
      rw [raColLoop, if_neg ht]

theorem raColLoop_good (chk : RestrictionCheck) (lp : ℕ → ℕ → LogProbPair) (T U : ℕ) :
    ∀ g t, 1 ≤ t → g (t - 1) 0 ≠ ⊥ → alphaGood chk T U g →
      alphaGood chk T U (raColLoop chk lp T g t) := by
  intro g t
  induction g, t using raColLoop.induct chk lp T with
  | case1 g t ht hchk ih =>
      intro h1 hprev hgood
      rw [raColLoop, if_pos ht, if_pos hchk]
      have hv : g (t - 1) 0 + (((lp (t - 1) 0).skip : ℝ) : WithBot ℝ) ≠ ⊥ := by
        rw [Ne, WithBot.add_eq_bot]
        push_neg
        exact ⟨hprev, WithBot.coe_ne_bot⟩
      refine ih (by omega) ?_ ?_
      · rw [show t + 1 - 1 = t from by omega, updW_same]
        exact hv
      · exact alphaGood_upd chk T U g t 0 _ hv hgood
          (Or.inl ⟨hchk, updW_ne_bot g t 0 _ hv hprev⟩)
  | case2 g t ht hchk =>
      intro _ _ hgood
      rw [raColLoop, if_pos ht, if_neg hchk]
      exact hgood
  | case3 g t ht =>
      intro _ _ hgood
      rw [raColLoop, if_neg ht]
      exact hgood

theorem raRowLoop_out (chk : RestrictionCheck) (lp : ℕ → ℕ → LogProbPair) (U : ℕ) :
    ∀ g u a b, ¬(a = 0 ∧ u ≤ b) → raRowLoop chk lp U g u a b = g a b := by
  intro g u
  induction g, u using raRowLoop.induct chk lp U with
  | case1 g u hu hchk ih =>
      intro a b h
      rw [raRowLoop, if_pos hu, if_pos hchk, ih a b (by omega),
        updW_other _ _ _ _ (by omega)]
  | case2 g u hu hchk =>
      intro a b h
      rw [raRowLoop, if_pos hu, if_neg hchk]
  | case3 g u hu =>
      intro a b h
      rw [raRowLoop, if_neg hu]

theorem raRowLoop_good (chk : RestrictionCheck) (lp : ℕ → ℕ → LogProbPair) (T U : ℕ) :
    ∀ g u, 1 ≤ u → g 0 (u - 1) ≠ ⊥ → alphaGood chk T U g →
      alphaGood chk T U (raRowLoop chk lp U g u) := by
  intro g u
  induction g, u using raRowLoop.induct chk lp U with
  | case1 g u hu hchk ih =>
      intro h1 hprev hgood
      rw [raRowLoop, if_pos hu, if_pos hchk]
      have hv : g 0 (u - 1) + (((lp 0 (u - 1)).emit : ℝ) : WithBot ℝ) ≠ ⊥ := by
        rw [Ne, WithBot.add_eq_bot]
        push_neg
        exact ⟨hprev, WithBot.coe_ne_bot⟩
      refine ih (by omega) ?_ ?_
      · rw [show u + 1 - 1 = u from by omega, updW_same]
        exact hv
      · exact alphaGood_upd chk T U g 0 u _ hv hgood
          (Or.inr ⟨hchk, updW_ne_bot g 0 u _ hv hprev⟩)
  | case2 g u hu hchk =>
      intro _ _ hgood
      rw [raRowLoop, if_pos hu, if_neg hchk]
      exact hgood
  | case3 g u hu =>
      intro _ _ hgood
      rw [raRowLoop, if_neg hu]
      exact hgood

theorem raCellStep_good (chk : RestrictionCheck) (lp : ℕ → ℕ → LogProbPair) (T U : ℕ)
    (g : ℕ → ℕ → WithBot ℝ) (t u : ℕ) (hgood : alphaGood chk T U g) :
    alphaGood chk T U (raCellStep chk lp g t u) := by
  simp only [raCellStep]
  set sk : WithBot ℝ :=
    (if chk.alphaBlankTransition t u then
      g (t - 1) u + (((lp (t - 1) u).skip : ℝ) : WithBot ℝ) else ⊥) with hsk
  set em : WithBot ℝ :=
    (if chk.alphaEmitTransition t u then
      g t (u - 1) + (((lp t (u - 1)).emit : ℝ) : WithBot ℝ) else ⊥) with hem
  by_cases hw : sk ≠ ⊥ ∨ em ≠ ⊥
  · rw [if_pos hw]
    have hv : lseW sk em ≠ ⊥ := lseW_ne_bot sk em hw
    refine alphaGood_upd chk T U g t u _ hv hgood ?_
    rcases hw with hs | he
    · have hc : chk.alphaBlankTransition t u = true := by
        by_contra hcn
        rw [hsk, if_neg hcn] at hs
        exact hs rfl
      rw [hsk, if_pos hc] at hs
      have hsrc : g (t - 1) u ≠ ⊥ := by
        intro hb
        rw [hb] at hs
        exact hs (WithBot.bot_add _)
      exact Or.inl ⟨hc, updW_ne_bot g t u _ hv hsrc⟩
    · have hc : chk.alphaEmitTransition t u = true := by
        by_contra hcn
        rw [hem, if_neg hcn] at he
        exact he rfl
      rw [hem, if_pos hc] at he
      have hsrc : g t (u - 1) ≠ ⊥ := by
        intro hb
        rw [hb] at he
        exact he (WithBot.bot_add _)
      exact Or.inr ⟨hc, updW_ne_bot g t u _ hv hsrc⟩
  · rw [if_neg hw]
    exact hgood

theorem raInnerLoop_good (chk : RestrictionCheck) (lp : ℕ → ℕ → LogProbPair) (T U : ℕ)
    (u tEnd : ℕ) :
    ∀ g t, alphaGood chk T U g → alphaGood chk T U (raInnerLoop chk lp u tEnd g t) := by
  intro g t
  induction g, t using raInnerLoop.induct chk lp u tEnd with
  | case1 g t ht ih =>
      intro hgood
      rw [raInnerLoop, if_pos ht]
      exact ih (raCellStep_good chk lp T U g t u hgood)
  | case2 g t ht =>
      intro hgood
      rw [raInnerLoop, if_neg ht]
      exact hgood

theorem raOuterLoop_good (chk : RestrictionCheck) (lp : ℕ → ℕ → LogProbPair) (T U : ℕ) :
    ∀ g u, alphaGood chk T U g → alphaGood chk T U (raOuterLoop chk lp U g u) := by
  intro g u
  induction g, u using raOuterLoop.induct chk lp U with
  | case1 g u hu ih =>
      intro hgood
      rw [raOuterLoop, if_pos hu]
      exact ih (raInnerLoop_good chk lp T U u (chk.validTimeRanges u).2 g
        (chk.validTimeRanges u).1 hgood)
  | case2 g u hu =>
      intro hgood
      rw [raOuterLoop, if_neg hu]
      exact hgood

/-- The final grid of the restricted forward pass is support-closed. -/
theorem restrictedAlpha_good (chk : RestrictionCheck) (lp : ℕ → ℕ → LogProbPair)
    (T U : ℕ) (g0 : ℕ → ℕ → WithBot ℝ) :
    alphaGood chk T U (ComputeAlphaOneSequenceRestricted chk lp T U g0).1 := by
  have hinit : alphaGood chk T U (updW (restrictInit T U g0) 0 0 (((0 : ℝ) : WithBot ℝ))) := by
    intro t u ht hu htu hne
    exact absurd (by rw [updW_other _ _ _ _ htu, restrictInit, if_pos ⟨ht, hu⟩]) hne
  have h00 : updW (restrictInit T U g0) 0 0 (((0 : ℝ) : WithBot ℝ)) 0 0 ≠ ⊥ := by
    rw [updW_same]
    exact WithBot.coe_ne_bot
  show alphaGood chk T U (raOuterLoop chk lp U (raRowLoop chk lp U (raColLoop chk lp T _ 1) 1) 1)
  refine raOuterLoop_good chk lp T U _ 1 (raRowLoop_good chk lp T U _ 1 le_rfl ?_
    (raColLoop_good chk lp T U _ 1 le_rfl h00 hinit))
  rw [raColLoop_out chk lp T _ 1 0 0 (by omega)]
  exact h00

/-- An accepted backward transition out of `(t,u)` with a finite source. -/
def betaSupported (chk : RestrictionCheck) (g : ℕ → ℕ → WithBot ℝ) (t u : ℕ) : Prop :=
  (chk.betaBlankTransition t u = true ∧ g (t + 1) u ≠ ⊥) ∨
    (chk.betaEmitTransition t u = true ∧ g t (u + 1) ≠ ⊥)

/-- Every finite in-range cell other than `beta(T-1,U-1)` (written unconditionally by
the initialization) has an accepted finite outgoing transition. -/
def betaGood (chk : RestrictionCheck) (T U : ℕ) (g : ℕ → ℕ → WithBot ℝ) : Prop :=
  ∀ t u, t < T → u < U → ¬(t = T - 1 ∧ u = U - 1) → g t u ≠ ⊥ → betaSupported chk g t u

theorem betaSupported_mono (chk : RestrictionCheck) (g g' : ℕ → ℕ → WithBot ℝ) (t u : ℕ)
    (hmono : ∀ a b, g a b ≠ ⊥ → g' a b ≠ ⊥) (h : betaSupported chk g t u) :
    betaSupported chk g' t u := by
  rcases h with ⟨h1, h2⟩ | ⟨h1, h2⟩
  · exact Or.inl ⟨h1, hmono _ _ h2⟩
  · exact Or.inr ⟨h1, hmono _ _ h2⟩

theorem betaGood_upd (chk : RestrictionCheck) (T U : ℕ) (g : ℕ → ℕ → WithBot ℝ)
    (t u : ℕ) (v : WithBot ℝ) (hv : v ≠ ⊥) (hg : betaGood chk T U g)
    (hcell : betaSupported chk (updW g t u v) t u) : betaGood chk T U (updW g t u v) := by
  intro a b ha hb hab hne
  by_cases hc : a = t ∧ b = u
  · obtain ⟨rfl, rfl⟩ := hc
    exact hcell
  · refine betaSupported_mono chk g _ a b (fun x y hxy => updW_ne_bot g t u v hv hxy) ?_
    exact hg a b ha hb hab (by rwa [updW_other g t u v hc] at hne)

theorem rbColLoop_out (chk : RestrictionCheck) (lp : ℕ → ℕ → LogProbPair) (U : ℕ) :
    ∀ n g a b, ¬(b = U - 1 ∧ a < n) → rbColLoop chk lp U g n a b = g a b := by
  intro n
  induction n with
  | zero => intro g a b h; rfl
  | succ n ih =>
      intro g a b h
      rw [rbColLoop]
      by_cases hchk : chk.betaBlankTransition n (U - 1) = true
      · rw [if_pos hchk, ih _ a b (by omega), updW_other _ _ _ _ (by omega)]
      · rw [if_neg hchk]

theorem rbColLoop_good (chk : RestrictionCheck) (lp : ℕ → ℕ → LogProbPair) (T U : ℕ) :
    ∀ n g, g n (U - 1) ≠ ⊥ → betaGood chk T U g →
      betaGood chk T U (rbColLoop chk lp U g n) := by
  intro n
  induction n with
  | zero => intro g _ hgood; exact hgood
  | succ n ih =>
      intro g hprev hgood
      rw [rbColLoop]
      by_cases hchk : chk.betaBlankTransition n (U - 1) = true
      · rw [if_pos hchk]
        have hv : g (n + 1) (U - 1) + (((lp n (U - 1)).skip : ℝ) : WithBot ℝ) ≠ ⊥ := by
          rw [Ne, WithBot.add_eq_bot]
          push_neg
          exact ⟨hprev, WithBot.coe_ne_bot⟩
        refine ih _ (by rw [updW_same]; exact hv) ?_
        exact betaGood_upd chk T U g n (U - 1) _ hv hgood
          (Or.inl ⟨hchk, updW_ne_bot g n (U - 1) _ hv hprev⟩)
      · rw [if_neg hchk]
        exact hgood

theorem rbRowLoop_out (chk : RestrictionCheck) (lp : ℕ → ℕ → LogProbPair) (T : ℕ) :
    ∀ m g a b, ¬(a = T - 1 ∧ b < m) → rbRowLoop chk lp T g m a b = g a b := by
  intro m
  induction m with
  | zero => intro g a b h; rfl
  | succ m ih =>
      intro g a b h
      rw [rbRowLoop]
      by_cases hchk : chk.betaEmitTransition (T - 1) m = true
      · rw [if_pos hchk, ih _ a b (by omega), updW_other _ _ _ _ (by omega)]
      · rw [if_neg hchk]

theorem rbRowLoop_good (chk : RestrictionCheck) (lp : ℕ → ℕ → LogProbPair) (T U : ℕ) :
    ∀ m g, g (T - 1) m ≠ ⊥ → betaGood chk T U g →
      betaGood chk T U (rbRowLoop chk lp T g m) := by
  intro m
  induction m with
  | zero => intro g _ hgood; exact hgood
  | succ m ih =>
      intro g hprev hgood
      rw [rbRowLoop]
      by_cases hchk : chk.betaEmitTransition (T - 1) m = true
      · rw [if_pos hchk]
        have hv : g (T - 1) (m + 1) + (((lp (T - 1) m).emit : ℝ) : WithBot ℝ) ≠ ⊥ := by
          rw [Ne, WithBot.add_eq_bot]
          push_neg
          exact ⟨hprev, WithBot.coe_ne_bot⟩
        refine ih _ (by rw [updW_same]; exact hv) ?_
        exact betaGood_upd chk T U g (T - 1) m _ hv hgood
          (Or.inr ⟨hchk, updW_ne_bot g (T - 1) m _ hv hprev⟩)
      · rw [if_neg hchk]
        exact hgood

theorem rbCellStep_good (chk : RestrictionCheck) (lp : ℕ → ℕ → LogProbPair) (T U : ℕ)
    (g : ℕ → ℕ → WithBot ℝ) (t u : ℕ) (hgood : betaGood chk T U g) :
    betaGood chk T U (rbCellStep chk lp g t u) := by
  simp only [rbCellStep]
  set sk : WithBot ℝ :=
    (if chk.betaBlankTransition t u then
      g (t + 1) u + (((lp t u).skip : ℝ) : WithBot ℝ) else ⊥) with hsk
  set em : WithBot ℝ :=
    (if chk.betaEmitTransition t u then
      g t (u + 1) + (((lp t u).emit : ℝ) : WithBot ℝ) else ⊥) with hem
  by_cases hw : sk ≠ ⊥ ∨ em ≠ ⊥
  · rw [if_pos hw]
    have hv : lseW sk em ≠ ⊥ := lseW_ne_bot sk em hw
    refine betaGood_upd chk T U g t u _ hv hgood ?_
    rcases hw with hs | he
    · have hc : chk.betaBlankTransition t u = true := by
        by_contra hcn
        rw [hsk, if_neg hcn] at hs
        exact hs rfl
      rw [hsk, if_pos hc] at hs
      have hsrc : g (t + 1) u ≠ ⊥ := by
        intro hb
        rw [hb] at hs
        exact hs (WithBot.bot_add _)
      exact Or.inl ⟨hc, updW_ne_bot g t u _ hv hsrc⟩
    · have hc : chk.betaEmitTransition t u = true := by
        by_contra hcn
        rw [hem, if_neg hcn] at he
        exact he rfl
      rw [hem, if_pos hc] at he
      have hsrc : g t (u + 1) ≠ ⊥ := by
        intro hb
        rw [hb] at he
        exact he (WithBot.bot_add _)
      exact Or.inr ⟨hc, updW_ne_bot g t u _ hv hsrc⟩
  · rw [if_neg hw]
    exact hgood

theorem rbInnerLoop_good (chk : RestrictionCheck) (lp : ℕ → ℕ → LogProbPair) (T U : ℕ)
    (u start : ℕ) :
    ∀ k g, betaGood chk T U g → betaGood chk T U (rbInnerLoop chk lp u start g k) := by
  intro k
  induction k with
  | zero => intro g hgood; exact hgood
  | succ k ih =>
      intro g hgood
      rw [rbInnerLoop]
      exact ih _ (rbCellStep_good chk lp T U g (start + k) u hgood)

theorem rbOuterLoop_good (chk : RestrictionCheck) (lp : ℕ → ℕ → LogProbPair) (T U : ℕ) :
    ∀ m g, betaGood chk T U g → betaGood chk T U (rbOuterLoop chk lp g m) := by
  intro m
  induction m with
  | zero => intro g hgood; exact hgood
  | succ m ih =>
      intro g hgood
      rw [rbOuterLoop]
      exact ih _ (rbInnerLoop_good chk lp T U m (chk.validTimeRanges m).1 _ g hgood)

/-- The final grid of the restricted backward pass is support-closed. -/
theorem restrictedBeta_good (chk : RestrictionCheck) (lp : ℕ → ℕ → LogProbPair)
    (T U : ℕ) (g0 : ℕ → ℕ → WithBot ℝ) :
    betaGood chk T U (ComputeBetaOneSequenceRestricted chk lp T U g0).1 := by
  have hinit : betaGood chk T U
      (updW (restrictInit T U g0) (T - 1) (U - 1)
        (((lp (T - 1) (U - 1)).skip : ℝ) : WithBot ℝ)) := by
    intro t u ht hu htu hne
    exact absurd (by rw [updW_other _ _ _ _ htu, restrictInit, if_pos ⟨ht, hu⟩]) hne
  have hcorner : updW (restrictInit T U g0) (T - 1) (U - 1)
      (((lp (T - 1) (U - 1)).skip : ℝ) : WithBot ℝ) (T - 1) (U - 1) ≠ ⊥ := by
    rw [updW_same]
    exact WithBot.coe_ne_bot
  show betaGood chk T U
    (rbOuterLoop chk lp (rbRowLoop chk lp T (rbColLoop chk lp U _ (T - 1)) (U - 1)) (U - 1))
  refine rbOuterLoop_good chk lp T U (U - 1) _ (rbRowLoop_good chk lp T U (U - 1) _ ?_
    (rbColLoop_good chk lp T U (T - 1) _ hcorner hinit))
  rw [rbColLoop_out chk lp U (T - 1) _ (T - 1) (U - 1) (by omega)]
  exact hcorner

/-- C7: in restricted mode, after `ComputeAlphaOneSequenceRestricted` and
`ComputeBetaOneSequenceRestricted` return, a lattice cell `(t < T, u < U)` other than the
boundary cells `alpha(0,0)` / `beta(T-1,U-1)` written by initialization holds a finite
value only if at least one transition accepted by the `AlignmentRestrictionCheck`
predicates contributes a finite term: every other cell keeps the `-∞` initialization,
so cells outside the region the predicates allow stay at `-∞`, for every predicate
assignment. -/
theorem C7_restricted_support (chk : RestrictionCheck) (lp : ℕ → ℕ → LogProbPair)
    (T U : ℕ) (g0a g0b : ℕ → ℕ → WithBot ℝ) (t u : ℕ) (ht : t < T) (hu : u < U) :
    (¬(t = 0 ∧ u = 0) →
      (ComputeAlphaOneSequenceRestricted chk lp T U g0a).1 t u ≠ ⊥ →
        (chk.alphaBlankTransition t u = true ∧
            (ComputeAlphaOneSequenceRestricted chk lp T U g0a).1 (t - 1) u ≠ ⊥) ∨
          (chk.alphaEmitTransition t u = true ∧
            (ComputeAlphaOneSequenceRestricted chk lp T U g0a).1 t (u - 1) ≠ ⊥)) ∧
    (¬(t = T - 1 ∧ u = U - 1) →
      (ComputeBetaOneSequenceRestricted chk lp T U g0b).1 t u ≠ ⊥ →
        (chk.betaBlankTransition t u = true ∧
            (ComputeBetaOneSequenceRestricted chk lp T U g0b).1 (t + 1) u ≠ ⊥) ∨
          (chk.betaEmitTransition t u = true ∧
            (ComputeBetaOneSequenceRestricted chk lp T U g0b).1 t (u + 1) ≠ ⊥)) :=
  ⟨fun hor hne => restrictedAlpha_good chk lp T U g0a t u ht hu hor hne,
    fun hor hne => restrictedBeta_good chk lp T U g0b t u ht hu hor hne⟩

theorem C7_restricted_support_witness :
    ((1 : ℕ) < 2 ∧ (0 : ℕ) < 2) ∧
      ((¬((1 : ℕ) = 0 ∧ (0 : ℕ) = 0) →
        (ComputeAlphaOneSequenceRestricted
            ⟨fun _ _ => false, fun _ _ => false, fun _ _ => false, fun _ _ => false,
              fun _ => (0, 0)⟩ (fun _ _ => ⟨0, 0⟩) 2 2 (fun _ _ => ⊥)).1 1 0 ≠ ⊥ →
          ((fun _ _ => false) 1 0 = true ∧
              (ComputeAlphaOneSequenceRestricted
                  ⟨fun _ _ => false, fun _ _ => false, fun _ _ => false, fun _ _ => false,
                    fun _ => (0, 0)⟩ (fun _ _ => ⟨0, 0⟩) 2 2 (fun _ _ => ⊥)).1 0 0 ≠ ⊥) ∨
            ((fun _ _ => false) 1 0 = true ∧
              (ComputeAlphaOneSequenceRestricted
                  ⟨fun _ _ => false, fun _ _ => false, fun _ _ => false, fun _ _ => false,
                    fun _ => (0, 0)⟩ (fun _ _ => ⟨0, 0⟩) 2 2 (fun _ _ => ⊥)).1 1 0 ≠ ⊥)) ∧
        (¬((1 : ℕ) = 2 - 1 ∧ (0 : ℕ) = 2 - 1) →
          (ComputeBetaOneSequenceRestricted
              ⟨fun _ _ => false, fun _ _ => false, fun _ _ => false, fun _ _ => false,
                fun _ => (0, 0)⟩ (fun _ _ => ⟨0, 0⟩) 2 2 (fun _ _ => ⊥)).1 1 0 ≠ ⊥ →
            ((fun _ _ => false) 1 0 = true ∧
                (ComputeBetaOneSequenceRestricted
                    ⟨fun _ _ => false, fun _ _ => false, fun _ _ => false, fun _ _ => false,
                      fun _ => (0, 0)⟩ (fun _ _ => ⟨0, 0⟩) 2 2 (fun _ _ => ⊥)).1 2 0 ≠ ⊥) ∨
              ((fun _ _ => false) 1 0 = true ∧
                (ComputeBetaOneSequenceRestricted
                    ⟨fun _ _ => false, fun _ _ => false, fun _ _ => false, fun _ _ => false,
                      fun _ => (0, 0)⟩ (fun _ _ => ⟨0, 0⟩) 2 2 (fun _ _ => ⊥)).1 1 1 ≠ ⊥))) :=
  ⟨⟨by omega, by omega⟩,
    C7_restricted_support
      ⟨fun _ _ => false, fun _ _ => false, fun _ _ => false, fun _ _ => false,
        fun _ => (0, 0)⟩ (fun _ _ => ⟨0, 0⟩) 2 2 (fun _ _ => ⊥) (fun _ _ => ⊥) 1 0
      (by omega) (by omega)⟩

end Rnnt
